import Mathlib

/-!
Verification development for the `backend_cs` repository.

The development shallowly embeds the two core subsystems of the repository:

* `app/services/pdf_parser.py` — the unit normalizer and the two line-scan
  parsers.  The external Text Line Extractor boundary (PyMuPDF) is modelled by
  taking the ordered list of text lines directly as input, exactly the value
  the Python code obtains from `full_text.split("\n")`.
* `app/services/transformation.py` — the per-code quantity aggregator
  `_process_pdfs`, modelled over already-parsed document results.
* `app/services/comparison.py` — the record reconciliation engine
  (`_compare_and_merge`, `_apply_sorting`, `_merge_mazza_report`, `compare`),
  modelled over lists of records; the spreadsheet codecs are the external
  boundary, so `compare` takes the already-decoded row lists.

Python regular expressions used by the source are embedded by a small
backtracking matcher (`CS.matchCPS`): alternation tries the left branch first
and repetition is greedy, exactly Python's strategy, so the embedding of each
pattern is a direct transliteration of the pattern string.
-/

namespace CS

/-- ASCII whitespace recognised by Python `str.strip`/`str.split` and `\s`
(unicode whitespace never occurs in the documents involved). -/
def pyIsSpace (c : Char) : Bool :=
  c == ' ' || c == '\t' || c == '\n' || c == '\r' || c == '\x0b' || c == '\x0c'

/-- `int(...)` on a string of decimal digits. -/
def digitsToNat (ds : List Char) : Nat :=
  ds.foldl (fun n c => n * 10 + (c.toNat - 48)) 0

/-- Python `str.strip()` on the character list of a string. -/
def pyStripList (l : List Char) : List Char :=
  ((l.dropWhile pyIsSpace).reverse.dropWhile pyIsSpace).reverse

/-- Python `str.strip()`. -/
def pyStrip (s : String) : String :=
  ⟨pyStripList s.data⟩

/-- Python `str.strip(chars)`: drop the given characters from both ends. -/
def pyStripChars (chars : List Char) (s : String) : String :=
  ⟨((s.data.dropWhile (chars.contains ·)).reverse.dropWhile (chars.contains ·)).reverse⟩

theorem length_dropWhile_le (p : Char → Bool) (l : List Char) :
    (l.dropWhile p).length ≤ l.length := by
  induction l with
  | nil => simp [List.dropWhile]
  | cons c t ih =>
    simp only [List.dropWhile]
    cases p c <;> simp <;> omega

/-- Fuel-indexed body of Python `str.split()` with no separator.  Each step
strictly shortens the input, so `length + 1` fuel always suffices and the
fuel-exhausted branch is dead. -/
def pySplitWSFuel : Nat → List Char → List (List Char)
  | 0, _ => []
  | _ + 1, [] => []
  | fuel + 1, c :: t =>
    if pyIsSpace c then pySplitWSFuel fuel t
    else (c :: t.takeWhile (fun x => !pyIsSpace x)) ::
      pySplitWSFuel fuel (t.dropWhile (fun x => !pyIsSpace x))

/-- Python `str.split()` (no separator): whitespace-delimited words, empty
words discarded. -/
def pySplitWS (s : List Char) : List (List Char) :=
  pySplitWSFuel (s.length + 1) s

/-- Python `" ".join(words)`. -/
def joinWords : List (List Char) → List Char
  | [] => []
  | [w] => w
  | w :: ws => w ++ ' ' :: joinWords ws

/-- `a` starts with `b` (on character lists). -/
def listIsPre : List Char → List Char → Bool
  | [], _ => true
  | _ :: _, [] => false
  | a :: as, b :: bs => a == b && listIsPre as bs

/-- Substring test on character lists (Python `sub in s`). -/
def listHasSub (sub : List Char) : List Char → Bool
  | [] => sub.isEmpty
  | c :: t => listIsPre sub (c :: t) || listHasSub sub t

/-- Python `sub in s` on strings. -/
def strContains (s sub : String) : Bool :=
  listHasSub sub.data s.data

/-- Abstract syntax of the regular expressions appearing in the source.
All repetition is over single-character classes, which is all the source
patterns use; `grp` is the single capturing group `(\d+)`-style construct. -/
inductive RE where
  | eps : RE
  | eos : RE
  | cls : (Char → Bool) → RE
  | str : List Char → RE
  | seq : RE → RE → RE
  | alt : RE → RE → RE
  | opt : RE → RE
  | many0 : (Char → Bool) → RE
  | many1 : (Char → Bool) → RE
  | grp : (Char → Bool) → RE

/-- Greedy repetition with backtracking, continuation-passing style:
first try to consume the next class character, fall back to stopping here. -/
def greedyCPS {α : Type} (f : Char → Bool) (cap : Option (List Char))
    (k : List Char → Option (List Char) → Option α) : List Char → Option α
  | [] => k [] cap
  | c :: t =>
    if f c then
      match greedyCPS f cap k t with
      | some a => some a
      | none => k (c :: t) cap
    else k (c :: t) cap

/-- Greedy capturing repetition (a `(\d+)` group) with backtracking;
`acc` holds the consumed characters in reverse. -/
def greedyGrp {α : Type} (f : Char → Bool) (acc : List Char)
    (k : List Char → Option (List Char) → Option α) : List Char → Option α
  | [] => if acc.isEmpty then none else k [] (some acc.reverse)
  | c :: t =>
    if f c then
      match greedyGrp f (c :: acc) k t with
      | some a => some a
      | none => if acc.isEmpty then none else k (c :: t) (some acc.reverse)
    else if acc.isEmpty then none else k (c :: t) (some acc.reverse)

/-- Backtracking matcher.  `matchCPS r s cap k` tries to match `r` at the
start of `s`; on success it calls `k` with the remaining input and the value
of the capturing group (if one was traversed).  Alternatives are tried in
Python's order: left alternative first, longest repetition first. -/
def matchCPS {α : Type} : RE → List Char → Option (List Char) →
    (List Char → Option (List Char) → Option α) → Option α
  | .eps, s, cap, k => k s cap
  | .eos, s, cap, k => if s.isEmpty then k s cap else none
  | .cls f, s, cap, k =>
    match s with
    | [] => none
    | c :: t => if f c then k t cap else none
  | .str cs, s, cap, k =>
    if listIsPre cs s then k (s.drop cs.length) cap else none
  | .seq a b, s, cap, k => matchCPS a s cap (fun s1 c1 => matchCPS b s1 c1 k)
  | .alt a b, s, cap, k =>
    (match matchCPS a s cap k with
     | some x => some x
     | none => matchCPS b s cap k)
  | .opt a, s, cap, k =>
    (match matchCPS a s cap k with
     | some x => some x
     | none => k s cap)
  | .many0 f, s, cap, k => greedyCPS f cap k s
  | .many1 f, s, cap, k =>
    match s with
    | [] => none
    | c :: t => if f c then greedyCPS f cap k t else none
  | .grp f, s, _, k => greedyGrp f [] k s

/-- Match `r` at the start of `s`; return the rest of the input after the
first (in backtracking order) successful match. -/
def reMatchEnd (r : RE) (s : List Char) : Option (List Char) :=
  matchCPS r s none (fun rest _ => some rest)

/-- `re.search`: try every start position left to right; on the first
position with a match, return the value of the capturing group. -/
def reSearchCapGo (r : RE) (s : List Char) : Option (Option (List Char)) :=
  match matchCPS r s none (fun _ cap => some cap) with
  | some res => some res
  | none =>
    match s with
    | [] => none
    | _ :: t => reSearchCapGo r t

/-- Fuel-indexed body of `re.sub`: at each position try to match; on a match
emit the replacement and resume after the matched span, otherwise emit the
character and move one position right.  Each step shortens the input, so
`length + 1` fuel always suffices and the fuel-exhausted branch is dead. -/
def reSubAllFuel (r : RE) (repl : List Char) : Nat → List Char → List Char
  | 0, s => s
  | fuel + 1, s =>
    match reMatchEnd r s with
    | some rest =>
      if rest.length < s.length then repl ++ reSubAllFuel r repl fuel rest
      else repl ++ rest
    | none =>
      match s with
      | [] => []
      | c :: t => c :: reSubAllFuel r repl fuel t

/-- `re.sub(r, repl, s)`: replace every non-overlapping leftmost match,
scanning resumes after each match.  (All source patterns consume at least one
character, so the zero-width guard branch never fires on them.) -/
def reSubAll (r : RE) (repl : List Char) (s : List Char) : List Char :=
  reSubAllFuel r repl (s.length + 1) s

/-- The class `\s`. -/
def wsC (c : Char) : Bool := pyIsSpace c

/-- The class `\d` (ASCII digits, the only ones in the documents). -/
def digC (c : Char) : Bool := c.isDigit

/-- `\s+X\s+\d+\s*$` — the trailing `X <number>` pattern removed by
`normalize_description` (pdf_parser.py line 60). -/
def reTrailX : RE :=
  .seq (.many1 wsC) (.seq (.str ['X']) (.seq (.many1 wsC)
    (.seq (.many1 digC) (.seq (.many0 wsC) .eos))))

/-- `\s*\d+(?:,\d+)?(?:G|KG)X\d+U(?:N)?\s*` — the packaging pattern removed
by `normalize_description` (pdf_parser.py line 63; note: decimal comma only). -/
def rePack : RE :=
  .seq (.many0 wsC) (.seq (.many1 digC)
    (.seq (.opt (.seq (.str [',']) (.many1 digC)))
      (.seq (.alt (.str ['G']) (.str ['K', 'G']))
        (.seq (.str ['X']) (.seq (.many1 digC)
          (.seq (.str ['U']) (.seq (.opt (.str ['N'])) (.many0 wsC))))))))

/-- `\d+(?:[,\.]\d+)?(?:G|KG)X(\d+)U(?:N)?` — priority-1 unit pattern of
`extract_units_from_description`. -/
def reUnits1 : RE :=
  .seq (.many1 digC)
    (.seq (.opt (.seq (.cls fun c => c == ',' || c == '.') (.many1 digC)))
      (.seq (.alt (.str ['G']) (.str ['K', 'G']))
        (.seq (.str ['X']) (.seq (.grp digC)
          (.seq (.str ['U']) (.opt (.str ['N'])))))))

/-- `X(\d+)UN` — priority-2 unit pattern. -/
def reUnits2 : RE := .seq (.str ['X']) (.seq (.grp digC) (.str ['U', 'N']))

/-- `\s+X\s+(\d+)\s*$` — priority-3 unit pattern. -/
def reUnits3 : RE :=
  .seq (.many1 wsC) (.seq (.str ['X']) (.seq (.many1 wsC)
    (.seq (.grp digC) (.seq (.many0 wsC) .eos))))

/-- `(\d+)UN` — priority-4 unit pattern. -/
def reUnits4 : RE := .seq (.grp digC) (.str ['U', 'N'])

/-!  ## `app/services/pdf_parser.py` -/

/-- `PDFParserService.extract_units_from_description`: try the four unit
patterns in strict priority order on the upper-cased description, first match
wins, default 1.  `None`/empty input yields 1. -/
def extract_units_from_description (description : String) : Nat :=
  if description = "" then 1
  else
    let du := description.data.map Char.toUpper
    match reSearchCapGo reUnits1 du with
    | some (some ds) => digitsToNat ds
    | _ =>
      match reSearchCapGo reUnits2 du with
      | some (some ds) => digitsToNat ds
      | _ =>
        match reSearchCapGo reUnits3 du with
        | some (some ds) => digitsToNat ds
        | _ =>
          match reSearchCapGo reUnits4 du with
          | some (some ds) => digitsToNat ds
          | _ => 1

/-- `PDFParserService.normalize_description`: remove a trailing
`X <number>`, remove the packaging token, collapse whitespace. -/
def normalize_description (description : String) : String :=
  if description = "" then ""
  else
    let d1 := reSubAll reTrailX [] description.data
    let d2 := reSubAll rePack [' '] d1
    ⟨joinWords (pySplitWS d2)⟩

/-- `re.match(r"^([12]\d{6})$", line)`: seven digits, leading digit 1 or 2. -/
def isProductCode (s : String) : Bool :=
  match s.data with
  | c :: rest => (c == '1' || c == '2') && rest.length == 6 && rest.all Char.isDigit
  | [] => false

/-- `re.match(r"^\d{2,3}$", line) and int(line) % 10 == 0`: the order-format
item marker (10, 20, 30, ...). -/
def isItemMarker (s : String) : Bool :=
  (s.data.length == 2 || s.data.length == 3) && s.data.all Char.isDigit &&
    digitsToNat s.data % 10 == 0

/-- `re.match(r"^(\d+)[,.]0{3}$", qty_line)`: integer followed by a decimal
separator and exactly three zeros (invoice-format quantity token). -/
def qtyToken (s : String) : Option Nat :=
  let ds := s.data.takeWhile Char.isDigit
  let rest := s.data.drop ds.length
  if ds.isEmpty then none
  else
    match rest with
    | [sep, a, b, c] =>
      if (sep == ',' || sep == '.') && a == '0' && b == '0' && c == '0' then
        some (digitsToNat ds)
      else none
    | _ => none

/-- `re.match(r"^(\d+)[,.]0{3}\s*$", qty_line)`: the order-format quantity
token additionally allows trailing whitespace. -/
def qtyTokenPedido (s : String) : Option Nat :=
  let ds := s.data.takeWhile Char.isDigit
  let rest := s.data.drop ds.length
  if ds.isEmpty then none
  else
    match rest with
    | sep :: a :: b :: c :: tail =>
      if (sep == ',' || sep == '.') && a == '0' && b == '0' && c == '0' &&
          tail.all pyIsSpace then
        some (digitsToNat ds)
      else none
    | _ => none

/-- The `qty = 0; for j in window: if match: qty = ...; break` loop: the
first line of the window whose stripped text matches the quantity token. -/
def firstQty (tok : String → Option Nat) : List String → Option Nat
  | [] => none
  | l :: rest =>
    match tok (pyStrip l) with
    | some q => some q
    | none => firstQty tok rest

/-- Parser state: the `quantities` and `descriptions` dicts, with Python
dict insertion order (new keys appended at the end). -/
abbrev ParseSt := List (String × Nat) × List (String × String)

/-- `d[code] += q` on a dict represented as an association list in insertion
order (the key is assumed present; absent keys are appended). -/
def dictAddQty {β : Type} [Add β] (qs : List (String × β)) (code : String) (q : β) :
    List (String × β) :=
  match qs with
  | [] => [(code, q)]
  | (c, v) :: rest =>
    if c = code then (c, v + q) :: rest else (c, v) :: dictAddQty rest code q

/-- The shared body of lines 118-126 / 194-202 of pdf_parser.py: on a
positive quantity, accumulate `total_units` for the code; the description is
recorded only when the code is new. -/
def addParsed (st : ParseSt) (code : String) (total : Nat) (desc : String) : ParseSt :=
  if (st.1.lookup code).isSome then (dictAddQty st.1 code total, st.2)
  else (st.1 ++ [(code, total)], st.2 ++ [(code, desc)])

/-- One iteration of the `parse_nf_pdf` scan at a line `l` whose successor
lines are `rest` (so the description is `rest[0]` and the quantity window is
`rest[1] ... rest[8]`, i.e. source indices `i+2 ... i+9`). -/
def nfStep (st : ParseSt) (l : String) (rest : List String) : ParseSt :=
  let line := pyStrip l
  if isProductCode line then
    match rest with
    | [] => st
    | d :: _ =>
      let description := pyStrip d
      let units_per_package := extract_units_from_description description
      let qty := (firstQty qtyToken ((rest.drop 1).take 8)).getD 0
      if qty > 0 then
        addParsed st line (qty * units_per_package) (normalize_description description)
      else st
  else st

/-- The `while i < len(lines)` loop of `parse_nf_pdf` (`i` advances by one
every iteration). -/
def nfGo (st : ParseSt) : List String → ParseSt
  | [] => st
  | l :: rest => nfGo (nfStep st l rest) rest

/-- `PDFParserService.parse_nf_pdf`, taken at the Text Line Extractor
boundary: the input is the list of text lines of the document. -/
def parse_nf_pdf (lines : List String) : ParseSt :=
  nfGo ([], []) lines

/-- One iteration of the `parse_pedido_pdf` scan: an item marker line, then
the product code, then the description, then a 5-line quantity window
(source indices `i+3 ... i+7`). -/
def pedidoStep (st : ParseSt) (l : String) (rest : List String) : ParseSt :=
  let line := pyStrip l
  if isItemMarker line then
    match rest with
    | [] => st
    | c :: rest2 =>
      let code_line := pyStrip c
      if isProductCode code_line then
        match rest2 with
        | [] => st
        | d :: _ =>
          let description := pyStrip d
          let units_per_package := extract_units_from_description description
          let qty := (firstQty qtyTokenPedido ((rest2.drop 1).take 5)).getD 0
          if qty > 0 then
            addParsed st code_line (qty * units_per_package)
              (normalize_description description)
          else st
      else st
  else st

/-- The `while i < len(lines)` loop of `parse_pedido_pdf`. -/
def pedidoGo (st : ParseSt) : List String → ParseSt
  | [] => st
  | l :: rest => pedidoGo (pedidoStep st l rest) rest

/-- `PDFParserService.parse_pedido_pdf` at the Text Line Extractor boundary. -/
def parse_pedido_pdf (lines : List String) : ParseSt :=
  pedidoGo ([], []) lines

/-!  ## `app/services/transformation.py` -/

/-- Aggregator state: the `all_quantities` and `all_descriptions` dicts. -/
abbrev AggSt := List (String × Nat) × List (String × String)

/-- One iteration of the inner loop of `TransformationService._process_pdfs`
(lines 64-70 / 75-81): add the entry's quantity into `all_quantities`; record
the document's description only if the code has none yet. -/
def aggEntry (docDescs : List (String × String)) (st : AggSt) (e : String × Nat) :
    AggSt :=
  (if (st.1.lookup e.1).isSome then dictAddQty st.1 e.1 e.2 else st.1 ++ [(e.1, e.2)],
   match st.2.lookup e.1, docDescs.lookup e.1 with
   | none, some d => st.2 ++ [(e.1, d)]
   | _, _ => st.2)

/-- Process one parsed document result into the aggregator state. -/
def aggDoc (st : AggSt) (doc : ParseSt) : AggSt :=
  doc.1.foldl (aggEntry doc.2) st

/-- Aggregation over a list of parsed document results in processing order. -/
def processDocs (docs : List ParseSt) : AggSt :=
  docs.foldl aggDoc ([], [])

/-- `TransformationService._process_pdfs`, taken at the parser boundary: all
invoice-format results first, then all order-format results. -/
def process_pdfs (nfResults pedidoResults : List ParseSt) : AggSt :=
  pedidoResults.foldl aggDoc (nfResults.foldl aggDoc ([], []))

/-!  ## `app/services/comparison.py`

Rows of the three tabular inputs, at the spreadsheet-codec boundary.  A
pandas cell that can be `NaN`/`None` is modelled as an `Option`; `NaN ≠ x`
is `True` in pandas for every `x`, which agrees with `none ≠ some x`. -/

/-- One row of the weekly report / result DataFrame (the base record set).
`saidasVD`/`saidasTotal` are the two columns added by the Mazza merge; they
are absent (`none`) before it. -/
structure ProductRecord where
  codLoja : Option String
  codigoProduto : String
  descricao : String
  grupo : Option String
  estoque : Option Int
  pedido : Option Int
  total : Option Int
  saidas : Option Int
  saidasVD : Option Int
  saidasTotal : Option Int
  sugestao : Option Int
deriving DecidableEq

/-- One cleaned row of the inventory sheet (`_read_inventory`). -/
structure InventoryRow where
  codLoja : String
  loja : String
  codProduto : String
  descProduto : String
  codGrupo : String
  descGrupo : String
  quantidade : Int
deriving DecidableEq

/-- One row of the Mazza ranking sheet (`_read_mazza_report`). -/
structure MazzaRow where
  codigo : String
  nomeProduto : String
  quantidade : Int
deriving DecidableEq

/-- `dict(zip(keys, values))`: for duplicate keys the last row wins. -/
def dictOf {β : Type} (pairs : List (String × β)) (k : String) : Option β :=
  pairs.reverse.lookup k

/-- `inventory_lookup` (code → `Quantidade`). -/
def inventory_lookup (inv : List InventoryRow) (k : String) : Option Int :=
  dictOf (inv.map fun r => (r.codProduto, r.quantidade)) k

/-- `inventory_cod_grupo` (code → `Cod Grupo`). -/
def inventory_cod_grupo (inv : List InventoryRow) (k : String) : Option String :=
  dictOf (inv.map fun r => (r.codProduto, r.codGrupo)) k

/-- `inventory_desc_grupo` (code → `Desc GRUPO`). -/
def inventory_desc_grupo (inv : List InventoryRow) (k : String) : Option String :=
  dictOf (inv.map fun r => (r.codProduto, r.descGrupo)) k

/-- `inventory_desc_produto` (code → `Desc Produto`). -/
def inventory_desc_produto (inv : List InventoryRow) (k : String) : Option String :=
  dictOf (inv.map fun r => (r.codProduto, r.descProduto)) k

/-- The body of the `for idx, row in result_df.iterrows()` loop of
`ComparisonService._compare_and_merge` (lines 85-109): stock update /
zeroing, then enrichment of records with an empty `Grupo`.  Each iteration
reads only its own row and the inventory lookups, so the loop is a map. -/
def rowUpdate (inv : List InventoryRow) (r : ProductRecord) : ProductRecord :=
  match inventory_lookup inv r.codigoProduto with
  | some invQty =>
    let r1 :=
      if r.estoque ≠ some invQty then
        { r with estoque := some invQty, total := some (invQty + r.pedido.getD 0) }
      else r
    if r.grupo = none ∨ r.grupo = some "" then
      let cod_grupo := (inventory_cod_grupo inv r.codigoProduto).getD ""
      let desc_grupo := (inventory_desc_grupo inv r.codigoProduto).getD ""
      let novoGrupo := pyStripChars [' ', '-'] (cod_grupo ++ " - " ++ desc_grupo)
      let r2 :=
        if cod_grupo ≠ "" ∨ desc_grupo ≠ "" then { r1 with grupo := some novoGrupo }
        else r1
      { r2 with descricao := (inventory_desc_produto inv r.codigoProduto).getD r.descricao }
    else r1
  | none =>
    if r.estoque ≠ some 0 then
      { r with estoque := some 0, total := some (r.pedido.getD 0) }
    else r

/-- `ComparisonService._compare_and_merge`: update every base record, stamp
the store code (from the inventory's first row) on all of them, then append
one new record per inventory row whose code is absent from the base set. -/
def compare_and_merge (weekly : List ProductRecord) (inv : List InventoryRow) :
    List ProductRecord :=
  let store_code : Option String := inv.head?.map (·.codLoja)
  let existing_codes := weekly.map (·.codigoProduto)
  let updated := (weekly.map (rowUpdate inv)).map fun r => { r with codLoja := store_code }
  let new_rows := (inv.filter fun ir => ¬ existing_codes.contains ir.codProduto).map
    fun ir =>
      { codLoja := some ir.codLoja
        codigoProduto := ir.codProduto
        descricao := ir.descProduto
        grupo := some (pyStripChars [' ', '-'] (ir.codGrupo ++ " - " ++ ir.descGrupo))
        estoque := some ir.quantidade
        pedido := none
        total := some ir.quantidade
        saidas := some 0
        saidasVD := none
        saidasTotal := none
        sugestao := none : ProductRecord }
  updated ++ new_rows

/-- `grupo_priority` of `ComparisonService._apply_sorting`: 0 for
`1014`+`Funcionais`, 2 for `1013`+`Pascoa`, 1 otherwise (including
missing/empty group). -/
def grupo_priority (grupo : Option String) : Nat :=
  match grupo with
  | none => 1
  | some g =>
    if g = "" then 1
    else if strContains g "1014" && strContains g "Funcionais" then 0
    else if strContains g "1013" && strContains g "Pascoa" then 2
    else 1

/-- The sort key order of `sort_values(["_priority", "Descrição"])`:
ascending priority, ties broken by ascending description. -/
def recLE (a b : ProductRecord) : Bool :=
  decide (grupo_priority a.grupo < grupo_priority b.grupo) ||
    (grupo_priority a.grupo == grupo_priority b.grupo &&
      decide (a.descricao ≤ b.descricao))

/-- Insert into a sorted list (used to model the key sort; any comparison
sort by the same key yields a list sorted by `recLE`, which is the contract
`sort_values` provides). -/
def insertLE {α : Type} (le : α → α → Bool) (x : α) : List α → List α
  | [] => [x]
  | y :: t => if le x y then x :: y :: t else y :: insertLE le x t

/-- Sort by the boolean relation `le`. -/
def insSort {α : Type} (le : α → α → Bool) : List α → List α
  | [] => []
  | x :: t => insertLE le x (insSort le t)

/-- `ComparisonService._apply_sorting`. -/
def apply_sorting (df : List ProductRecord) : List ProductRecord :=
  insSort recLE df

/-- One iteration of the `for _, mazza_row in mazza_df.iterrows()` loop of
`ComparisonService._merge_mazza_report` (lines 185-217).  `codigo in
existing_codes` is equivalent to a record with that code being present,
because appended rows are added to both and codes are never removed; on a
match pandas reads `Saídas`/`Saídas VD` from the first matching row and
writes every matching row. -/
def mazzaStep (store_code : String) (st : List ProductRecord) (row : MazzaRow) :
    List ProductRecord :=
  match st.find? fun r => r.codigoProduto == row.codigo with
  | some r0 =>
    let current_saidas := r0.saidas.getD 0
    let current_saidas_vd := r0.saidasVD.getD 0
    st.map fun r =>
      if r.codigoProduto == row.codigo then
        { r with
            saidasVD := some (current_saidas_vd + row.quantidade)
            saidasTotal := some (current_saidas + current_saidas_vd + row.quantidade) }
      else r
  | none =>
    st ++ [{ codLoja := some store_code
             codigoProduto := row.codigo
             descricao := row.nomeProduto
             grupo := none
             estoque := none
             pedido := none
             total := none
             saidas := none
             saidasVD := some row.quantidade
             saidasTotal := some row.quantidade
             sugestao := none : ProductRecord }]

/-- `ComparisonService._merge_mazza_report`: initialise the two new columns
to `None` on every record, then fold the ranking rows.  (The final column
reordering only permutes attributes, which the record type fixes.) -/
def merge_mazza_report (records : List ProductRecord) (mazza : List MazzaRow)
    (store_code : String) : List ProductRecord :=
  let init := records.map fun r => { r with saidasVD := none, saidasTotal := none }
  mazza.foldl (mazzaStep store_code) init

/-- `ComparisonService.compare` at the record level: merge, sort, and merge
the Mazza report only when one was supplied and the store code derived from
the inventory's first row is the designated "1225". -/
def compare_pipeline (weekly : List ProductRecord) (inv : List InventoryRow)
    (mazza : Option (List MazzaRow)) : List ProductRecord :=
  let result := compare_and_merge weekly inv
  let store_code : Option String := inv.head?.map (·.codLoja)
  let df_output := apply_sorting result
  match mazza with
  | some m =>
    if store_code = some "1225" then merge_mazza_report df_output m "1225"
    else df_output
  | none => df_output

/-!  ## General helper lemmas -/

theorem lookup_append {β : Type} (l1 l2 : List (String × β)) (k : String) :
    (l1 ++ l2).lookup k =
      match l1.lookup k with
      | some v => some v
      | none => l2.lookup k := by
  induction l1 with
  | nil => simp [List.lookup]
  | cons p t ih =>
    obtain ⟨a, b⟩ := p
    by_cases h : k == a
    · simp [List.lookup, h]
    · simp [List.lookup, h, ih]

theorem perm_any {α : Type} {l1 l2 : List α} (h : l1.Perm l2) (p : α → Bool) :
    l1.any p = l2.any p := by
  induction h with
  | nil => rfl
  | cons x _ ih => simp [List.any_cons, ih]
  | swap x y l =>
    simp only [List.any_cons]
    rw [← Bool.or_assoc, Bool.or_comm (p y) (p x), Bool.or_assoc]
  | trans _ _ ih1 ih2 => exact ih1.trans ih2

/-!  ## Sorting lemmas -/

theorem recLE_total (a b : ProductRecord) : recLE a b = true ∨ recLE b a = true := by
  unfold recLE
  rcases Nat.lt_trichotomy (grupo_priority a.grupo) (grupo_priority b.grupo) with h | h | h
  · left; simp [h]
  · rcases le_total a.descricao b.descricao with hd | hd
    · left; simp [h, hd]
    · right; simp [h, hd]
  · right; simp [h]

theorem recLE_trans {a b c : ProductRecord} (hab : recLE a b = true)
    (hbc : recLE b c = true) : recLE a c = true := by
  simp only [recLE, Bool.or_eq_true, Bool.and_eq_true, decide_eq_true_eq,
    beq_iff_eq] at *
  rcases hab with h1 | ⟨h1, h1d⟩ <;> rcases hbc with h2 | ⟨h2, h2d⟩
  · left; omega
  · left; omega
  · left; omega
  · right; exact ⟨h1.trans h2, le_trans h1d h2d⟩

theorem insertLE_perm {α : Type} (le : α → α → Bool) (x : α) (l : List α) :
    (insertLE le x l).Perm (x :: l) := by
  induction l with
  | nil => simp [insertLE]
  | cons y t ih =>
    simp only [insertLE]
    by_cases h : le x y
    · simp [h]
    · simp only [h, if_neg, Bool.false_eq_true, not_false_eq_true]
      exact (ih.cons y).trans (List.Perm.swap x y t)

theorem insSort_perm {α : Type} (le : α → α → Bool) (l : List α) :
    (insSort le l).Perm l := by
  induction l with
  | nil => simp [insSort]
  | cons x t ih => exact (insertLE_perm le x (insSort le t)).trans (ih.cons x)

theorem mem_insertLE {α : Type} {le : α → α → Bool} {x z : α} {l : List α}
    (h : z ∈ insertLE le x l) : z = x ∨ z ∈ l := by
  have := (insertLE_perm le x l).mem_iff.mp h
  simpa using this

theorem insertLE_sorted {α : Type} {le : α → α → Bool}
    (htot : ∀ a b, le a b = true ∨ le b a = true)
    (htrans : ∀ {a b c}, le a b = true → le b c = true → le a c = true)
    {x : α} {l : List α} (hl : l.Pairwise fun a b => le a b = true) :
    (insertLE le x l).Pairwise fun a b => le a b = true := by
  induction l with
  | nil => simp [insertLE]
  | cons y t ih =>
    rcases List.pairwise_cons.mp hl with ⟨hy, ht⟩
    simp only [insertLE]
    by_cases h : le x y
    · simp only [h, if_pos]
      refine List.pairwise_cons.mpr ⟨?_, hl⟩
      intro z hz
      rcases List.mem_cons.mp hz with rfl | hz
      · exact h
      · exact htrans h (hy z hz)
    · simp only [h, Bool.false_eq_true, if_neg, not_false_eq_true]
      refine List.pairwise_cons.mpr ⟨?_, ih ht⟩
      intro z hz
      rcases mem_insertLE hz with rfl | hz
      · rcases htot z y with h2 | h2
        · exact absurd h2 (by simpa using h)
        · exact h2
      · exact hy z hz

theorem insSort_sorted {α : Type} {le : α → α → Bool}
    (htot : ∀ a b, le a b = true ∨ le b a = true)
    (htrans : ∀ {a b c}, le a b = true → le b c = true → le a c = true)
    (l : List α) : (insSort le l).Pairwise fun a b => le a b = true := by
  induction l with
  | nil => simp [insSort]
  | cons x t ih => exact insertLE_sorted htot htrans ih

/-!  ## Claim C3 — designated-store gating -/

/-- C3: if a ranking dataset is supplied but the store code derived from the
inventory's first row is not the designated "1225", the reconciliation
output is identical to a run with no ranking dataset at all. -/
theorem c3_designated_store_gating (weekly : List ProductRecord)
    (inv : List InventoryRow) (m : List MazzaRow)
    (h : inv.head?.map (·.codLoja) ≠ some "1225") :
    compare_pipeline weekly inv (some m) = compare_pipeline weekly inv none := by
  simp only [compare_pipeline]
  rw [if_neg h]

theorem c3_designated_store_gating_witness :
    compare_pipeline
        [⟨none, "1234567", "A", none, some 1, none, some 1, some 0, none, none, none⟩]
        [⟨"1224", "Loja", "1234567", "A", "1010", "Outros", 5⟩]
        (some [⟨"1234567", "A", 50⟩]) =
      compare_pipeline
        [⟨none, "1234567", "A", none, some 1, none, some 1, some 0, none, none, none⟩]
        [⟨"1224", "Loja", "1234567", "A", "1010", "Outros", 5⟩] none :=
  c3_designated_store_gating _ _ _ (by decide)

/-!  ## Claim C4 — three-tier sort -/

/-- C4: the reconciliation sort assigns tier 0 to groups containing both
"1014" and "Funcionais", tier 2 to groups containing both "1013" and
"Pascoa" (and not the former pair), tier 1 to everything else including
null/empty groups; records are ordered by ascending tier, ties by ascending
description; the three-group scenario sorts Funcionais first and Pascoa
last. -/
theorem c4_sort_tiers :
    (∀ df : List ProductRecord, (apply_sorting df).Perm df) ∧
    (∀ df : List ProductRecord,
        (apply_sorting df).Pairwise fun a b => recLE a b = true) ∧
    (∀ g : String, g ≠ "" →
        (strContains g "1014" && strContains g "Funcionais") = true →
        grupo_priority (some g) = 0) ∧
    (∀ g : String, g ≠ "" →
        (strContains g "1013" && strContains g "Pascoa") = true →
        (strContains g "1014" && strContains g "Funcionais") = false →
        grupo_priority (some g) = 2) ∧
    (∀ g : String,
        (strContains g "1014" && strContains g "Funcionais") = false →
        (strContains g "1013" && strContains g "Pascoa") = false →
        grupo_priority (some g) = 1) ∧
    grupo_priority none = 1 ∧ grupo_priority (some "") = 1 ∧
    (apply_sorting
        [⟨none, "1", "B", some "1010 - Outros", none, none, none, none, none, none, none⟩,
         ⟨none, "2", "A", some "1014 - Funcionais", none, none, none, none, none, none, none⟩,
         ⟨none, "3", "C", some "1013 - Pascoa", none, none, none, none, none, none, none⟩]).map
        (·.grupo) =
      [some "1014 - Funcionais", some "1010 - Outros", some "1013 - Pascoa"] := by
  refine ⟨fun df => insSort_perm recLE df,
    fun df => insSort_sorted recLE_total (fun h1 h2 => recLE_trans h1 h2) df,
    ?_, ?_, ?_, rfl, rfl, by decide⟩
  · intro g hg h
    rw [Bool.and_eq_true] at h
    simp [grupo_priority, hg, h.1, h.2]
  · intro g hg h h14
    rw [Bool.and_eq_true] at h
    have h14n : ¬(strContains g "1014" = true ∧ strContains g "Funcionais" = true) := by
      rintro ⟨a, b⟩
      simp [a, b] at h14
    simp [grupo_priority, hg, h.1, h.2, h14n]
  · intro g h14 h13
    have h14n : ¬(strContains g "1014" = true ∧ strContains g "Funcionais" = true) := by
      rintro ⟨a, b⟩
      simp [a, b] at h14
    have h13n : ¬(strContains g "1013" = true ∧ strContains g "Pascoa" = true) := by
      rintro ⟨a, b⟩
      simp [a, b] at h13
    by_cases hg : g = ""
    · simp [grupo_priority, hg]
    · simp [grupo_priority, hg, h14n, h13n]

/-!  ## Claim C1 — stock update / zeroing in the reconciliation merge -/

/-- Positional description of `compare_and_merge`: the `i`-th output record
(for `i` inside the base set) is the updated `i`-th base record stamped with
the store code; new inventory records only come after. -/
theorem compare_and_merge_getElem (weekly : List ProductRecord)
    (inv : List InventoryRow) (i : Nat) (h : i < weekly.length) :
    (compare_and_merge weekly inv)[i]? =
      (weekly[i]?).map fun r =>
        { rowUpdate inv r with codLoja := inv.head?.map (·.codLoja) } := by
  simp only [compare_and_merge]
  rw [List.getElem?_append, if_pos (by simpa using h)]
  simp only [List.getElem?_map]
  cases weekly[i]? <;> rfl

/-- C1: a base record found in inventory with a differing on-hand gets the
inventory on-hand and `total = on_hand + pending` (pending null → 0); a base
record absent from inventory with nonzero on-hand gets on-hand 0 and
`total = pending`; both per-record facts hold of the records the merge
produces (positionally), and the spec's zeroing scenario holds. -/
theorem c1_merge_stock_update :
    (∀ (inv : List InventoryRow) (r : ProductRecord) (q : Int),
        inventory_lookup inv r.codigoProduto = some q →
        r.estoque ≠ some q →
        (rowUpdate inv r).estoque = some q ∧
        (rowUpdate inv r).total = some (q + r.pedido.getD 0)) ∧
    (∀ (inv : List InventoryRow) (r : ProductRecord),
        inventory_lookup inv r.codigoProduto = none →
        r.estoque ≠ some 0 →
        (rowUpdate inv r).estoque = some 0 ∧
        (rowUpdate inv r).total = some (r.pedido.getD 0)) ∧
    (∀ (weekly : List ProductRecord) (inv : List InventoryRow) (i : Nat),
        i < weekly.length →
        (compare_and_merge weekly inv)[i]? =
          (weekly[i]?).map fun r =>
            { rowUpdate inv r with codLoja := inv.head?.map (·.codLoja) }) ∧
    ((compare_and_merge
        [⟨none, "2345678", "PROD B", none, some 50, some 10, some 60, some 0,
          none, none, none⟩] []).map fun r => (r.estoque, r.total)) =
      [(some 0, some 10)] := by
  refine ⟨?_, ?_, compare_and_merge_getElem, by decide⟩
  · intro inv r q hq hne
    simp only [rowUpdate, hq]
    rw [if_pos hne]
    split
    · split <;> exact ⟨rfl, rfl⟩
    · exact ⟨rfl, rfl⟩
  · intro inv r hq hne
    simp only [rowUpdate, hq]
    rw [if_pos hne]
    exact ⟨rfl, rfl⟩

theorem c1_merge_stock_update_witness :
    ((rowUpdate [⟨"1225", "Loja X", "1234567", "PROD A INV", "1010", "Outros", 150⟩]
        ⟨none, "1234567", "PROD A", some "1010 - Outros", some 100, some 25,
          some 125, some 20, none, none, none⟩).estoque = some 150 ∧
      (rowUpdate [⟨"1225", "Loja X", "1234567", "PROD A INV", "1010", "Outros", 150⟩]
        ⟨none, "1234567", "PROD A", some "1010 - Outros", some 100, some 25,
          some 125, some 20, none, none, none⟩).total = some 175) ∧
    ((rowUpdate []
        ⟨none, "2345678", "PROD B", none, some 50, some 10, some 60, some 0,
          none, none, none⟩).estoque = some 0 ∧
      (rowUpdate []
        ⟨none, "2345678", "PROD B", none, some 50, some 10, some 60, some 0,
          none, none, none⟩).total = some 10) ∧
    (compare_and_merge
        [⟨none, "2345678", "PROD B", none, some 50, some 10, some 60, some 0,
          none, none, none⟩]
        [⟨"1225", "Loja X", "1234567", "PROD A INV", "1010", "Outros", 150⟩])[0]? =
      ((([⟨none, "2345678", "PROD B", none, some 50, some 10, some 60, some 0,
          none, none, none⟩] : List ProductRecord)[0]?).map fun r =>
        { rowUpdate [⟨"1225", "Loja X", "1234567", "PROD A INV", "1010", "Outros", 150⟩] r
            with codLoja :=
              ([⟨"1225", "Loja X", "1234567", "PROD A INV", "1010", "Outros", 150⟩] :
                List InventoryRow).head?.map (·.codLoja) }) := by
  refine ⟨⟨(c1_merge_stock_update.1 _ _ 150 (by decide) (by decide)).1, ?_⟩,
    ⟨(c1_merge_stock_update.2.1 _ _ (by decide) (by decide)).1, ?_⟩,
    c1_merge_stock_update.2.2.1 _ _ 0 (by decide)⟩
  · exact (c1_merge_stock_update.1 _ _ 150 (by decide) (by decide)).2
  · exact (c1_merge_stock_update.2.1 _ _ (by decide) (by decide)).2

/-!  ## Claim C5 — enrichment frame conditions -/

/-- C5: the enrichment of the reconciliation merge never touches group or
description of a record whose group is already non-empty, whatever the
inventory holds; for a record with a null/blank group whose code is in
inventory, the description is overwritten with the inventory description and
the group is set to the trimmed `"<group_code> - <group_label>"` whenever
either part is non-empty. -/
theorem c5_enrichment_frame :
    (∀ (inv : List InventoryRow) (r : ProductRecord) (g : String),
        r.grupo = some g → g ≠ "" →
        (rowUpdate inv r).grupo = r.grupo ∧
        (rowUpdate inv r).descricao = r.descricao) ∧
    (∀ (inv : List InventoryRow) (r : ProductRecord) (d : String),
        (r.grupo = none ∨ r.grupo = some "") →
        (inventory_lookup inv r.codigoProduto).isSome →
        inventory_desc_produto inv r.codigoProduto = some d →
        (rowUpdate inv r).descricao = d ∧
        (((inventory_cod_grupo inv r.codigoProduto).getD "" ≠ "" ∨
            (inventory_desc_grupo inv r.codigoProduto).getD "" ≠ "") →
          (rowUpdate inv r).grupo =
            some (pyStripChars [' ', '-']
              ((inventory_cod_grupo inv r.codigoProduto).getD "" ++ " - " ++
                (inventory_desc_grupo inv r.codigoProduto).getD "")))) := by
  constructor
  · intro inv r g hg hgne
    have hcond : ¬(r.grupo = none ∨ r.grupo = some "") := by
      rintro (h | h) <;> rw [hg] at h
      · exact Option.noConfusion h
      · exact hgne (Option.some.injEq _ _ ▸ h)
    cases hq : inventory_lookup inv r.codigoProduto with
    | some q =>
      simp only [rowUpdate, hq]
      rw [if_neg hcond]
      split <;> exact ⟨rfl, rfl⟩
    | none =>
      simp only [rowUpdate, hq]
      split <;> exact ⟨rfl, rfl⟩
  · intro inv r d hempty hsome hdesc
    obtain ⟨q, hq⟩ := Option.isSome_iff_exists.mp hsome
    simp only [rowUpdate, hq]
    rw [if_pos hempty]
    refine ⟨by simp [hdesc], fun hcd => ?_⟩
    rw [if_pos hcd]

theorem c5_enrichment_frame_witness :
    ((rowUpdate [⟨"1225", "Loja X", "1234567", "PROD INV", "1013", "Pascoa", 7⟩]
        ⟨none, "1234567", "PROD A", some "1010 - Outros", some 7, none, some 7,
          some 0, none, none, none⟩).grupo = some "1010 - Outros" ∧
      (rowUpdate [⟨"1225", "Loja X", "1234567", "PROD INV", "1013", "Pascoa", 7⟩]
        ⟨none, "1234567", "PROD A", some "1010 - Outros", some 7, none, some 7,
          some 0, none, none, none⟩).descricao = "PROD A") ∧
    ((rowUpdate [⟨"1225", "Loja X", "1234567", "PROD INV", "1013", "Pascoa", 7⟩]
        ⟨none, "1234567", "PROD A", none, some 7, none, some 7,
          some 0, none, none, none⟩).descricao = "PROD INV" ∧
      (rowUpdate [⟨"1225", "Loja X", "1234567", "PROD INV", "1013", "Pascoa", 7⟩]
        ⟨none, "1234567", "PROD A", none, some 7, none, some 7,
          some 0, none, none, none⟩).grupo = some "1013 - Pascoa") := by
  refine ⟨c5_enrichment_frame.1 _ _ "1010 - Outros" rfl (by decide), ?_, ?_⟩
  · exact (c5_enrichment_frame.2 _ _ "PROD INV" (Or.inl rfl) (by decide) (by decide)).1
  · exact (c5_enrichment_frame.2 _ _ "PROD INV" (Or.inl rfl) (by decide) (by decide)).2
      (by decide)

/-!  ## Claim C2 — ranking (Mazza) merge -/

/-- C2: each ranking entry with a matching record adds its quantity to that
record's `Saídas VD` (prior null as 0) and sets `Saídas Total` to `Saídas`
(null as 0) plus the post-add `Saídas VD`; an unmatched entry appends a new
record carrying the designated store code, the entry's description, the
quantity in both new columns and null everywhere else; the spec's ranking
scenario holds. -/
theorem c2_ranking_merge :
    (∀ (sc : String) (st : List ProductRecord) (row : MazzaRow)
        (r0 : ProductRecord),
        st.find? (fun r => r.codigoProduto == row.codigo) = some r0 →
        ∀ i : Nat,
          (mazzaStep sc st row)[i]? =
            (st[i]?).map fun r =>
              if r.codigoProduto == row.codigo then
                { r with
                    saidasVD := some (r0.saidasVD.getD 0 + row.quantidade),
                    saidasTotal := some (r0.saidas.getD 0 +
                      (r0.saidasVD.getD 0 + row.quantidade)) }
              else r) ∧
    (∀ (sc : String) (st : List ProductRecord) (row : MazzaRow),
        st.find? (fun r => r.codigoProduto == row.codigo) = none →
        mazzaStep sc st row =
          st ++ [⟨some sc, row.codigo, row.nomeProduto, none, none, none, none,
            none, some row.quantidade, some row.quantidade, none⟩]) ∧
    ((merge_mazza_report
        [⟨none, "1234567", "PROD A", none, some 100, some 25, some 125, some 20,
          none, none, none⟩]
        [⟨"1234567", "PROD A", 50⟩, ⟨"9999999", "NOVO PROD", 100⟩]
        "1225").map fun r =>
        (r.codigoProduto, r.saidasVD, r.saidasTotal, r.saidas, r.estoque,
          r.codLoja, r.descricao)) =
      [("1234567", some 50, some 70, some 20, some 100, none, "PROD A"),
       ("9999999", some 100, some 100, none, none, some "1225", "NOVO PROD")] := by
  refine ⟨?_, ?_, by rfl⟩
  · intro sc st row r0 h i
    simp only [mazzaStep, h]
    rw [List.getElem?_map]
    cases st[i]? with
    | none => rfl
    | some r =>
      cases hb : r.codigoProduto == row.codigo
      · have hne : ¬(r.codigoProduto = row.codigo) := by simpa using hb
        simp [hne]
      · have heq : r.codigoProduto = row.codigo := by simpa using hb
        simp [heq, Int.add_assoc]
  · intro sc st row h
    simp only [mazzaStep, h]

theorem c2_ranking_merge_witness :
    ((mazzaStep "1225"
        [⟨none, "1234567", "PROD A", none, some 100, some 25, some 125, some 20,
          none, none, none⟩] ⟨"1234567", "PROD A", 50⟩)[0]? =
      some ⟨none, "1234567", "PROD A", none, some 100, some 25, some 125, some 20,
        some 50, some 70, none⟩) ∧
    (mazzaStep "1225"
        [⟨none, "1234567", "PROD A", none, some 100, some 25, some 125, some 20,
          none, none, none⟩] ⟨"9999999", "NOVO PROD", 100⟩ =
      [⟨none, "1234567", "PROD A", none, some 100, some 25, some 125, some 20,
          none, none, none⟩,
        ⟨some "1225", "9999999", "NOVO PROD", none, none, none, none, none,
          some 100, some 100, none⟩]) := by
  constructor
  · have := c2_ranking_merge.1 "1225"
      [⟨none, "1234567", "PROD A", none, some 100, some 25, some 125, some 20,
        none, none, none⟩] ⟨"1234567", "PROD A", 50⟩
      ⟨none, "1234567", "PROD A", none, some 100, some 25, some 125, some 20,
        none, none, none⟩ (by decide) 0
    simpa using this
  · exact c2_ranking_merge.2.1 "1225" _ _ (by decide)

/-!  ## Claims C6/C7 — aggregator lemmas -/

/-- Total quantity a single parsed document contributes to a code. -/
def docContrib (doc : ParseSt) (c : String) : Nat :=
  ((doc.1.filter fun e => e.1 == c).map Prod.snd).sum

/-- Whether a parsed document mentions a code in its quantity map entries. -/
def docHas (doc : ParseSt) (c : String) : Bool :=
  doc.1.any fun e => e.1 == c

theorem lookup_dictAddQty_self (qs : List (String × Nat)) (c : String) (q : Nat) :
    (dictAddQty qs c q).lookup c = some ((qs.lookup c).getD 0 + q) := by
  induction qs with
  | nil => simp [dictAddQty, List.lookup]
  | cons p t ih =>
    obtain ⟨a, v⟩ := p
    by_cases h : a = c
    · subst h
      simp [dictAddQty, List.lookup]
    · have h2 : (c == a) = false := by simp [Ne.symm h]
      simp [dictAddQty, List.lookup, h, h2, ih]

theorem lookup_dictAddQty_ne (qs : List (String × Nat)) {c c' : String} (q : Nat)
    (h : c' ≠ c) : (dictAddQty qs c q).lookup c' = qs.lookup c' := by
  have hb : (c' == c) = false := by simp [h]
  induction qs with
  | nil => simp [dictAddQty, List.lookup, hb]
  | cons p t ih =>
    obtain ⟨a, v⟩ := p
    by_cases ha : a = c
    · subst ha
      have h2 : (c' == a) = false := by simp [h]
      simp [dictAddQty, List.lookup, h2]
    · simp [dictAddQty, List.lookup, ha, ih]

theorem aggEntry_lookup_val (descs : List (String × String)) (st : AggSt)
    (e : String × Nat) (c : String) :
    (((aggEntry descs st e).1).lookup c).getD 0 =
      (st.1.lookup c).getD 0 + (if e.1 == c then e.2 else 0) := by
  show ((if (st.1.lookup e.1).isSome then dictAddQty st.1 e.1 e.2
      else st.1 ++ [(e.1, e.2)]).lookup c).getD 0 = _
  by_cases hk : e.1 = c
  · subst hk
    cases hp : st.1.lookup e.1 with
    | none =>
      simp only [hp, Option.isSome_none, Bool.false_eq_true, if_neg,
        not_false_eq_true, lookup_append, hp]
      simp [List.lookup]
    | some v =>
      simp only [hp, Option.isSome_some, if_pos, lookup_dictAddQty_self, hp]
      simp
  · have h2 : (c == e.1) = false := by simp [Ne.symm hk]
    have h3 : (e.1 == c) = false := by simp [hk]
    cases hp : st.1.lookup e.1 with
    | none =>
      simp only [hp, Option.isSome_none, Bool.false_eq_true, if_neg,
        not_false_eq_true, lookup_append, h3]
      cases hc : st.1.lookup c <;> simp [List.lookup, h2, hc]
    | some v =>
      simp [lookup_dictAddQty_ne st.1 e.2 (Ne.symm hk), h3, hp]

theorem aggEntry_lookup_isSome (descs : List (String × String)) (st : AggSt)
    (e : String × Nat) (c : String) :
    (((aggEntry descs st e).1).lookup c).isSome =
      ((st.1.lookup c).isSome || e.1 == c) := by
  show ((if (st.1.lookup e.1).isSome then dictAddQty st.1 e.1 e.2
      else st.1 ++ [(e.1, e.2)]).lookup c).isSome = _
  by_cases hk : e.1 = c
  · subst hk
    cases hp : st.1.lookup e.1 with
    | none =>
      simp only [hp, Option.isSome_none, Bool.false_eq_true, if_neg,
        not_false_eq_true, lookup_append, hp]
      simp [List.lookup]
    | some v =>
      simp [lookup_dictAddQty_self, hp]
  · have h2 : (c == e.1) = false := by simp [Ne.symm hk]
    have h3 : (e.1 == c) = false := by simp [hk]
    cases hp : st.1.lookup e.1 with
    | none =>
      simp only [hp, Option.isSome_none, Bool.false_eq_true, if_neg,
        not_false_eq_true, lookup_append, h3]
      cases hc : st.1.lookup c <;> simp [List.lookup, h2, hc]
    | some v =>
      simp [lookup_dictAddQty_ne st.1 e.2 (Ne.symm hk), h3, hp]

theorem foldl_aggEntry_val (descs : List (String × String))
    (entries : List (String × Nat)) (st : AggSt) (c : String) :
    (((entries.foldl (aggEntry descs) st).1).lookup c).getD 0 =
      (st.1.lookup c).getD 0 +
        ((entries.filter fun e => e.1 == c).map Prod.snd).sum := by
  induction entries generalizing st with
  | nil => simp
  | cons e t ih =>
    simp only [List.foldl_cons]
    rw [ih, aggEntry_lookup_val]
    by_cases hk : e.1 = c
    · have h3 : (e.1 == c) = true := by simp [hk]
      simp [List.filter_cons, h3]
      omega
    · have h3 : (e.1 == c) = false := by simp [hk]
      simp [List.filter_cons, h3]

theorem foldl_aggEntry_isSome (descs : List (String × String))
    (entries : List (String × Nat)) (st : AggSt) (c : String) :
    (((entries.foldl (aggEntry descs) st).1).lookup c).isSome =
      ((st.1.lookup c).isSome || entries.any fun e => e.1 == c) := by
  induction entries generalizing st with
  | nil => simp
  | cons e t ih =>
    simp only [List.foldl_cons]
    rw [ih, aggEntry_lookup_isSome]
    simp [Bool.or_assoc]

theorem processAux_val (docs : List ParseSt) (st : AggSt) (c : String) :
    (((docs.foldl aggDoc st).1).lookup c).getD 0 =
      (st.1.lookup c).getD 0 + (docs.map (docContrib · c)).sum := by
  induction docs generalizing st with
  | nil => simp
  | cons d t ih =>
    simp only [List.foldl_cons]
    rw [ih]
    show ((((d.1.foldl (aggEntry d.2) st).1).lookup c).getD 0) + _ = _
    rw [foldl_aggEntry_val]
    simp [docContrib]
    omega

theorem processAux_isSome (docs : List ParseSt) (st : AggSt) (c : String) :
    (((docs.foldl aggDoc st).1).lookup c).isSome =
      ((st.1.lookup c).isSome || docs.any (docHas · c)) := by
  induction docs generalizing st with
  | nil => simp
  | cons d t ih =>
    simp only [List.foldl_cons]
    rw [ih]
    simp only [aggDoc]
    rw [foldl_aggEntry_isSome]
    simp [docHas, Bool.or_assoc]

/-!  ## Claim C6 — aggregation commutativity -/

/-- C6: `_process_pdfs` processes the invoice results then the order results
exactly as one pass over their concatenation, and the aggregated quantity
map (per-code lookup) is identical under every permutation of the document
processing order. -/
theorem c6_aggregation_commutative :
    (∀ nfResults pedidoResults : List ParseSt,
        process_pdfs nfResults pedidoResults =
          processDocs (nfResults ++ pedidoResults)) ∧
    (∀ docs1 docs2 : List ParseSt, docs1.Perm docs2 → ∀ code : String,
        (processDocs docs1).1.lookup code = (processDocs docs2).1.lookup code) := by
  constructor
  · intro nf pe
    simp [process_pdfs, processDocs, List.foldl_append]
  · intro docs1 docs2 hperm code
    have hv : ((processDocs docs1).1.lookup code).getD 0 =
        ((processDocs docs2).1.lookup code).getD 0 := by
      simp only [processDocs, processAux_val]
      have := (hperm.map (docContrib · code)).sum_eq
      simpa using this
    have hs : ((processDocs docs1).1.lookup code).isSome =
        ((processDocs docs2).1.lookup code).isSome := by
      simp only [processDocs, processAux_isSome]
      have := perm_any hperm (docHas · code)
      simpa using this
    cases h1 : (processDocs docs1).1.lookup code with
    | none =>
      cases h2 : (processDocs docs2).1.lookup code with
      | none => rfl
      | some w => rw [h1, h2] at hs; simp at hs
    | some v =>
      cases h2 : (processDocs docs2).1.lookup code with
      | none => rw [h1, h2] at hs; simp at hs
      | some w => rw [h1, h2] at hv; simp at hv; rw [hv]

theorem c6_aggregation_commutative_witness :
    (processDocs [([("1234567", 5)], [("1234567", "A")]),
        ([("1234567", 7), ("2222222", 3)], [("1234567", "B"), ("2222222", "C")])]).1.lookup
        "1234567" =
      (processDocs [([("1234567", 7), ("2222222", 3)], [("1234567", "B"), ("2222222", "C")]),
        ([("1234567", 5)], [("1234567", "A")])]).1.lookup "1234567" :=
  c6_aggregation_commutative.2 _ _ (List.Perm.swap _ _ _) "1234567"

/-!  ## Claim C7 — description first-wins -/

theorem aggEntry_desc_mono (descs : List (String × String)) (st : AggSt)
    (e : String × Nat) {c d : String} (h : st.2.lookup c = some d) :
    (aggEntry descs st e).2.lookup c = some d := by
  show (match st.2.lookup e.1, descs.lookup e.1 with
    | none, some dd => st.2 ++ [(e.1, dd)]
    | _, _ => st.2).lookup c = some d
  cases h1 : st.2.lookup e.1 with
  | none =>
    cases h2 : descs.lookup e.1 with
    | none => exact h
    | some dd => rw [lookup_append, h]
  | some v => exact h

theorem aggEntry_desc_none (descs : List (String × String)) (st : AggSt)
    (e : String × Nat) {c : String} (h : st.2.lookup c = none) (hk : e.1 ≠ c) :
    (aggEntry descs st e).2.lookup c = none := by
  show (match st.2.lookup e.1, descs.lookup e.1 with
    | none, some dd => st.2 ++ [(e.1, dd)]
    | _, _ => st.2).lookup c = none
  cases h1 : st.2.lookup e.1 with
  | none =>
    cases h2 : descs.lookup e.1 with
    | none => exact h
    | some dd =>
      rw [lookup_append, h]
      have hb : (c == e.1) = false := by simp [Ne.symm hk]
      simp [List.lookup, hb]
  | some v => exact h

theorem aggEntry_desc_new (descs : List (String × String)) (st : AggSt)
    (e : String × Nat) {c dd : String} (h : st.2.lookup c = none)
    (hk : e.1 = c) (hd : descs.lookup c = some dd) :
    (aggEntry descs st e).2.lookup c = some dd := by
  subst hk
  show (match st.2.lookup e.1, descs.lookup e.1 with
    | none, some x => st.2 ++ [(e.1, x)]
    | _, _ => st.2).lookup e.1 = some dd
  rw [h, hd, lookup_append, h]
  simp [List.lookup]

theorem foldl_desc_mono (descs : List (String × String))
    (entries : List (String × Nat)) (st : AggSt) {c d : String}
    (h : st.2.lookup c = some d) :
    ((entries.foldl (aggEntry descs) st).2).lookup c = some d := by
  induction entries generalizing st with
  | nil => exact h
  | cons e t ih => exact ih _ (aggEntry_desc_mono descs st e h)

theorem foldl_desc_new (descs : List (String × String))
    (entries : List (String × Nat)) (st : AggSt) {c dd : String}
    (h : st.2.lookup c = none) (hd : descs.lookup c = some dd)
    (ha : (entries.any fun e => e.1 == c) = true) :
    ((entries.foldl (aggEntry descs) st).2).lookup c = some dd := by
  induction entries generalizing st with
  | nil => simp at ha
  | cons e t ih =>
    simp only [List.foldl_cons]
    by_cases hk : e.1 = c
    · exact foldl_desc_mono descs t _ (aggEntry_desc_new descs st e h hk hd)
    · have ha2 : (t.any fun e => e.1 == c) = true := by
        rcases List.any_eq_true.mp ha with ⟨x, hx, hxc⟩
        rcases List.mem_cons.mp hx with rfl | hx
        · exact absurd (by simpa using hxc) hk
        · exact List.any_eq_true.mpr ⟨x, hx, hxc⟩
      exact ih _ (aggEntry_desc_none descs st e h hk) ha2

/-- C7: for two documents that both introduce the same code, aggregating
`[D1, D2]` keeps D1's description and `[D2, D1]` keeps D2's, while the
aggregated quantity is the sum of both contributions in either order. -/
theorem c7_description_first_wins (d1 d2 : ParseSt) (c s1 s2 : String)
    (h1a : (d1.1.any fun e => e.1 == c) = true) (h1d : d1.2.lookup c = some s1)
    (h2a : (d2.1.any fun e => e.1 == c) = true) (h2d : d2.2.lookup c = some s2)
    (hne : s1 ≠ s2) :
    (processDocs [d1, d2]).2.lookup c = some s1 ∧
    (processDocs [d2, d1]).2.lookup c = some s2 ∧
    ((processDocs [d1, d2]).1.lookup c).getD 0 = docContrib d1 c + docContrib d2 c ∧
    ((processDocs [d2, d1]).1.lookup c).getD 0 = docContrib d2 c + docContrib d1 c := by
  refine ⟨?_, ?_, ?_, ?_⟩
  · show ((aggDoc (aggDoc ([], []) d1) d2).2).lookup c = some s1
    have h1 : ((aggDoc ([], []) d1).2).lookup c = some s1 :=
      foldl_desc_new d1.2 d1.1 ([], []) rfl h1d h1a
    exact foldl_desc_mono d2.2 d2.1 _ h1
  · show ((aggDoc (aggDoc ([], []) d2) d1).2).lookup c = some s2
    have h1 : ((aggDoc ([], []) d2).2).lookup c = some s2 :=
      foldl_desc_new d2.2 d2.1 ([], []) rfl h2d h2a
    exact foldl_desc_mono d1.2 d1.1 _ h1
  · rw [show processDocs [d1, d2] = [d1, d2].foldl aggDoc ([], []) from rfl,
      processAux_val]
    simp
  · rw [show processDocs [d2, d1] = [d2, d1].foldl aggDoc ([], []) from rfl,
      processAux_val]
    simp

theorem c7_description_first_wins_witness :
    (processDocs [([("1234567", 5)], [("1234567", "DESC ONE")]),
        ([("1234567", 7)], [("1234567", "DESC TWO")])]).2.lookup "1234567" =
      some "DESC ONE" ∧
    (processDocs [([("1234567", 7)], [("1234567", "DESC TWO")]),
        ([("1234567", 5)], [("1234567", "DESC ONE")])]).2.lookup "1234567" =
      some "DESC TWO" ∧
    ((processDocs [([("1234567", 5)], [("1234567", "DESC ONE")]),
        ([("1234567", 7)], [("1234567", "DESC TWO")])]).1.lookup "1234567").getD 0 =
      docContrib ([("1234567", 5)], [("1234567", "DESC ONE")]) "1234567" +
        docContrib ([("1234567", 7)], [("1234567", "DESC TWO")]) "1234567" := by
  have h := c7_description_first_wins
    ([("1234567", 5)], [("1234567", "DESC ONE")])
    ([("1234567", 7)], [("1234567", "DESC TWO")])
    "1234567" "DESC ONE" "DESC TWO"
    (by decide) (by decide) (by decide) (by decide) (by decide)
  exact ⟨h.1, h.2.1, h.2.2.1⟩

/-!  ## Claim C8 — bounded quantity windows -/

theorem firstQty_none (tok : String → Option Nat) (w : List String)
    (h : ∀ x ∈ w, tok (pyStrip x) = none) : firstQty tok w = none := by
  induction w with
  | nil => rfl
  | cons l rest ih =>
    simp only [firstQty, h l (by simp)]
    exact ih fun x hx => h x (List.mem_cons_of_mem _ hx)

theorem nfGo_skip (lines : List String) (st : ParseSt)
    (h : ∀ x ∈ lines, isProductCode (pyStrip x) = false) : nfGo st lines = st := by
  induction lines generalizing st with
  | nil => rfl
  | cons l rest ih =>
    show nfGo (nfStep st l rest) rest = st
    rw [show nfStep st l rest = st by simp [nfStep, h l (by simp)]]
    exact ih st fun x hx => h x (List.mem_cons_of_mem _ hx)

theorem pedidoGo_skip (lines : List String) (st : ParseSt)
    (h : ∀ x ∈ lines, isItemMarker (pyStrip x) = false) : pedidoGo st lines = st := by
  induction lines generalizing st with
  | nil => rfl
  | cons l rest ih =>
    show pedidoGo (pedidoStep st l rest) rest = st
    rw [show pedidoStep st l rest = st by simp [pedidoStep, h l (by simp)]]
    exact ih st fun x hx => h x (List.mem_cons_of_mem _ hx)

theorem marker_ne_code {s : String} (h : isProductCode s = true) :
    isItemMarker s = false := by
  unfold isProductCode at h
  unfold isItemMarker
  cases hs : s.data with
  | nil => rw [hs] at h; exact absurd h (by simp)
  | cons c rest =>
    rw [hs] at h
    simp only [Bool.and_eq_true, beq_iff_eq] at h
    have h6 : rest.length = 6 := h.1.2
    simp [hs, h6]

/-- C8: the invoice-format parser looks for the quantity token only in the 8
lines at source indices `i+2 … i+9` after a code line at `i`, and the
order-format parser only in the 5 lines after its description line; a code
whose window holds no quantity token contributes nothing to either map, even
when a matching token sits one line beyond the window. -/
theorem c8_window_boundary :
    (∀ (l : String) (rest : List String),
        isProductCode (pyStrip l) = true →
        (∀ x ∈ rest, isProductCode (pyStrip x) = false) →
        (∀ x ∈ (rest.drop 1).take 8, qtyToken (pyStrip x) = none) →
        parse_nf_pdf (l :: rest) = ([], [])) ∧
    (∀ (m c d : String) (rest : List String),
        isItemMarker (pyStrip m) = true →
        isProductCode (pyStrip c) = true →
        isItemMarker (pyStrip d) = false →
        (∀ x ∈ rest, isItemMarker (pyStrip x) = false) →
        (∀ x ∈ rest.take 5, qtyTokenPedido (pyStrip x) = none) →
        parse_pedido_pdf (m :: c :: d :: rest) = ([], [])) := by
  constructor
  · intro l rest hl hnone hwin
    show nfGo (nfStep ([], []) l rest) rest = ([], [])
    have hstep : nfStep ([], []) l rest = ([], []) := by
      cases rest with
      | nil => simp [nfStep, hl]
      | cons d rest2 =>
        have hq : firstQty qtyToken (rest2.take 8) = none :=
          firstQty_none _ _ (by simpa using hwin)
        simp [nfStep, hl, hq]
    rw [hstep]
    exact nfGo_skip rest ([], []) hnone
  · intro m c d rest hm hc hd hrest hwin
    show pedidoGo (pedidoStep ([], []) m (c :: d :: rest)) (c :: d :: rest) = ([], [])
    have hq : firstQty qtyTokenPedido (rest.take 5) = none :=
      firstQty_none _ _ hwin
    have hstep : pedidoStep ([], []) m (c :: d :: rest) = ([], []) := by
      simp [pedidoStep, hm, hc, hq]
    rw [hstep]
    refine pedidoGo_skip (c :: d :: rest) ([], []) ?_
    intro x hx
    rcases List.mem_cons.mp hx with rfl | hx
    · exact marker_ne_code hc
    · rcases List.mem_cons.mp hx with rfl | hx
      · exact hd
      · exact hrest x hx

theorem c8_window_boundary_witness :
    parse_nf_pdf
        ["1234567", "DESC", "a", "b", "c", "d", "e", "f", "g", "h", "7,000"] =
      ([], []) ∧
    parse_pedido_pdf ["10", "1234567", "DESC", "a", "b", "c", "d", "e", "7,000"] =
      ([], []) :=
  ⟨c8_window_boundary.1 "1234567"
      ["DESC", "a", "b", "c", "d", "e", "f", "g", "h", "7,000"]
      (by decide) (by decide) (by decide),
    c8_window_boundary.2 "10" "1234567" "DESC" ["a", "b", "c", "d", "e", "7,000"]
      (by decide) (by decide) (by decide) (by decide) (by decide)⟩

/-!  ## Claim C10 — parser result invariants (corrected) -/

theorem dictAddQty_keys_of_mem {qs : List (String × Nat)} {c : String}
    (h : (qs.lookup c).isSome = true) (q : Nat) :
    (dictAddQty qs c q).map Prod.fst = qs.map Prod.fst := by
  induction qs with
  | nil => simp [List.lookup] at h
  | cons p t ih =>
    obtain ⟨a, v⟩ := p
    by_cases ha : a = c
    · subst ha
      simp [dictAddQty]
    · have hb : (c == a) = false := by simp [Ne.symm ha]
      have h2 : (t.lookup c).isSome = true := by
        simpa [List.lookup, hb] using h
      simp [dictAddQty, ha, ih h2]

theorem dictAddQty_pos {qs : List (String × Nat)} {c : String} {q : Nat}
    (hq : 0 < q) (h : ∀ p ∈ qs, 0 < p.2) : ∀ p ∈ dictAddQty qs c q, 0 < p.2 := by
  induction qs with
  | nil =>
    intro p hp
    simp only [dictAddQty, List.mem_singleton] at hp
    subst hp
    exact hq
  | cons hd t ih =>
    obtain ⟨a, v⟩ := hd
    intro p hp
    by_cases ha : a = c
    · rw [show dictAddQty ((a, v) :: t) c q = (a, v + q) :: t from by
        simp [dictAddQty, ha]] at hp
      rcases List.mem_cons.mp hp with rfl | hp
      · have hv := h (a, v) (by simp)
        simp only at hv ⊢
        omega
      · exact h p (List.mem_cons_of_mem _ hp)
    · rw [show dictAddQty ((a, v) :: t) c q = (a, v) :: dictAddQty t c q from by
        simp [dictAddQty, ha]] at hp
      rcases List.mem_cons.mp hp with rfl | hp
      · exact h (a, v) (by simp)
      · exact ih (fun x hx => h x (List.mem_cons_of_mem _ hx)) p hp

theorem addParsed_keys {st : ParseSt}
    (h : st.1.map Prod.fst = st.2.map Prod.fst) (code : String) (total : Nat)
    (desc : String) :
    (addParsed st code total desc).1.map Prod.fst =
      (addParsed st code total desc).2.map Prod.fst := by
  unfold addParsed
  by_cases hp : (st.1.lookup code).isSome = true
  · simp [hp, dictAddQty_keys_of_mem hp, h]
  · simp only [Bool.not_eq_true] at hp
    simp [hp, h]

theorem addParsed_pos {st : ParseSt} (hpos : ∀ p ∈ st.1, 0 < p.2) {total : Nat}
    (ht : 0 < total) (code : String) (desc : String) :
    ∀ p ∈ (addParsed st code total desc).1, 0 < p.2 := by
  unfold addParsed
  by_cases hp : (st.1.lookup code).isSome = true
  · simp only [hp, if_pos]
    exact dictAddQty_pos ht hpos
  · simp only [Bool.not_eq_true] at hp
    simp only [hp, Bool.false_eq_true, if_neg, not_false_eq_true]
    intro p hpm
    rcases List.mem_append.mp hpm with hpm | hpm
    · exact hpos p hpm
    · simp only [List.mem_singleton] at hpm
      subst hpm
      exact ht

theorem nfStep_keys (st : ParseSt) (l : String) (rest : List String)
    (h : st.1.map Prod.fst = st.2.map Prod.fst) :
    (nfStep st l rest).1.map Prod.fst = (nfStep st l rest).2.map Prod.fst := by
  cases rest with
  | nil =>
    unfold nfStep
    dsimp only
    split <;> exact h
  | cons d r2 =>
    unfold nfStep
    dsimp only
    split
    · split
      · exact addParsed_keys h _ _ _
      · exact h
    · exact h

theorem nfStep_pos (st : ParseSt) (l : String) (rest : List String)
    (hall : ∀ x ∈ l :: rest, 1 ≤ extract_units_from_description (pyStrip x))
    (hpos : ∀ p ∈ st.1, 0 < p.2) : ∀ p ∈ (nfStep st l rest).1, 0 < p.2 := by
  cases rest with
  | nil =>
    unfold nfStep
    dsimp only
    split <;> exact hpos
  | cons d r2 =>
    unfold nfStep
    dsimp only
    split
    · split
      · rename_i hq
        refine addParsed_pos hpos ?_ _ _
        have hu : 1 ≤ extract_units_from_description (pyStrip d) := hall d (by simp)
        exact Nat.mul_pos hq (by omega)
      · exact hpos
    · exact hpos

theorem pedidoStep_keys (st : ParseSt) (l : String) (rest : List String)
    (h : st.1.map Prod.fst = st.2.map Prod.fst) :
    (pedidoStep st l rest).1.map Prod.fst = (pedidoStep st l rest).2.map Prod.fst := by
  cases rest with
  | nil =>
    unfold pedidoStep
    dsimp only
    split <;> exact h
  | cons c2 r2 =>
    cases r2 with
    | nil =>
      unfold pedidoStep
      dsimp only
      split
      · split <;> exact h
      · exact h
    | cons d r3 =>
      unfold pedidoStep
      dsimp only
      split
      · split
        · split
          · exact addParsed_keys h _ _ _
          · exact h
        · exact h
      · exact h

theorem pedidoStep_pos (st : ParseSt) (l : String) (rest : List String)
    (hall : ∀ x ∈ l :: rest, 1 ≤ extract_units_from_description (pyStrip x))
    (hpos : ∀ p ∈ st.1, 0 < p.2) : ∀ p ∈ (pedidoStep st l rest).1, 0 < p.2 := by
  cases rest with
  | nil =>
    unfold pedidoStep
    dsimp only
    split <;> exact hpos
  | cons c2 r2 =>
    cases r2 with
    | nil =>
      unfold pedidoStep
      dsimp only
      split
      · split <;> exact hpos
      · exact hpos
    | cons d r3 =>
      unfold pedidoStep
      dsimp only
      split
      · split
        · split
          · rename_i hq
            refine addParsed_pos hpos ?_ _ _
            have hu : 1 ≤ extract_units_from_description (pyStrip d) :=
              hall d (by simp)
            exact Nat.mul_pos hq (by omega)
          · exact hpos
        · exact hpos
      · exact hpos

theorem nfGo_keys (lines : List String) (st : ParseSt)
    (h : st.1.map Prod.fst = st.2.map Prod.fst) :
    (nfGo st lines).1.map Prod.fst = (nfGo st lines).2.map Prod.fst := by
  induction lines generalizing st with
  | nil => exact h
  | cons l rest ih => exact ih _ (nfStep_keys st l rest h)

theorem nfGo_pos (lines : List String) (st : ParseSt)
    (hall : ∀ x ∈ lines, 1 ≤ extract_units_from_description (pyStrip x))
    (hpos : ∀ p ∈ st.1, 0 < p.2) : ∀ p ∈ (nfGo st lines).1, 0 < p.2 := by
  induction lines generalizing st with
  | nil => exact hpos
  | cons l rest ih =>
    exact ih _ (fun x hx => hall x (List.mem_cons_of_mem _ hx))
      (nfStep_pos st l rest hall hpos)

theorem pedidoGo_keys (lines : List String) (st : ParseSt)
    (h : st.1.map Prod.fst = st.2.map Prod.fst) :
    (pedidoGo st lines).1.map Prod.fst = (pedidoGo st lines).2.map Prod.fst := by
  induction lines generalizing st with
  | nil => exact h
  | cons l rest ih => exact ih _ (pedidoStep_keys st l rest h)

theorem pedidoGo_pos (lines : List String) (st : ParseSt)
    (hall : ∀ x ∈ lines, 1 ≤ extract_units_from_description (pyStrip x))
    (hpos : ∀ p ∈ st.1, 0 < p.2) : ∀ p ∈ (pedidoGo st lines).1, 0 < p.2 := by
  induction lines generalizing st with
  | nil => exact hpos
  | cons l rest ih =>
    exact ih _ (fun x hx => hall x (List.mem_cons_of_mem _ hx))
      (pedidoStep_pos st l rest hall hpos)

/-- C10 counterexample to strict positivity as claimed: a description whose
unit annotation is `X0UN` gives multiplier 0, so the code enters the maps
with aggregated quantity 0 even though its quantity token is positive. -/
theorem c10_counterexample :
    ("1234567", 0) ∈ (parse_nf_pdf ["1234567", "PROD X0UN", "5,000"]).1 := by
  decide

/-- C10 (amended): both parsers always return quantity and description maps
with identical key sequences; every aggregated quantity is strictly positive
provided every line's extracted unit multiplier is at least 1 (a pathological
`X0UN`-style annotation is the only way to get 0); a code whose first
in-window token encodes zero appears in neither map. -/
theorem c10_parser_invariants :
    (∀ lines : List String,
        (parse_nf_pdf lines).1.map Prod.fst = (parse_nf_pdf lines).2.map Prod.fst ∧
        (parse_pedido_pdf lines).1.map Prod.fst =
          (parse_pedido_pdf lines).2.map Prod.fst) ∧
    (∀ lines : List String,
        (∀ x ∈ lines, 1 ≤ extract_units_from_description (pyStrip x)) →
        (∀ p ∈ (parse_nf_pdf lines).1, 0 < p.2) ∧
        (∀ p ∈ (parse_pedido_pdf lines).1, 0 < p.2)) ∧
    parse_nf_pdf ["1234567", "PROD", "0,000", "5,000"] = ([], []) := by
  refine ⟨fun lines => ⟨nfGo_keys lines ([], []) rfl, pedidoGo_keys lines ([], []) rfl⟩,
    fun lines h => ⟨nfGo_pos lines ([], []) h (by simp),
      pedidoGo_pos lines ([], []) h (by simp)⟩, by decide⟩

theorem c10_parser_invariants_witness :
    0 < (("1234567", 10) : String × Nat).2 :=
  (c10_parser_invariants.2.1 ["1234567", "PROD X2UN", "5,000"] (by decide)).1
    ("1234567", 10) (by decide)

/-!  ## Claim C9 — normalizer: matcher computation and inversion lemmas -/

theorem digit_not_ws {c : Char} (h : c.isDigit = true) : pyIsSpace c = false := by
  unfold pyIsSpace
  by_contra hc
  simp only [Bool.not_eq_false, Bool.or_eq_true, beq_iff_eq] at hc
  rcases hc with ((((h1 | h1) | h1) | h1) | h1) | h1 <;> subst h1 <;>
    exact absurd h (by decide)

theorem listIsPre_self_append (cs v : List Char) : listIsPre cs (cs ++ v) = true := by
  induction cs with
  | nil => rfl
  | cons c t ih => simp [listIsPre, ih]

theorem listIsPre_exists {cs s : List Char} (h : listIsPre cs s = true) :
    ∃ v, s = cs ++ v := by
  induction cs generalizing s with
  | nil => exact ⟨s, rfl⟩
  | cons c t ih =>
    cases s with
    | nil => simp [listIsPre] at h
    | cons b bs =>
      simp only [listIsPre, Bool.and_eq_true, beq_iff_eq] at h
      obtain ⟨rfl, h2⟩ := h
      obtain ⟨v, rfl⟩ := ih h2
      exact ⟨v, rfl⟩

theorem greedyCPS_all {α : Type} {f : Char → Bool} {cap : Option (List Char)}
    {k : List Char → Option (List Char) → Option α} {s u v : List Char} {a : α}
    (hs : s = u ++ v) (hu : ∀ ch ∈ u, f ch = true)
    (hv : v = [] ∨ ∃ c t, v = c :: t ∧ f c = false) (hk : k v cap = some a) :
    greedyCPS f cap k s = some a := by
  subst hs
  induction u with
  | nil =>
    rcases hv with rfl | ⟨c, t, rfl, hc⟩
    · simpa [greedyCPS] using hk
    · simpa [greedyCPS, hc] using hk
  | cons c u2 ih =>
    have hc : f c = true := hu c (by simp)
    have hrec := ih fun ch hch => hu ch (List.mem_cons_of_mem _ hch)
    simp [greedyCPS, hc, hrec]

theorem matchCPS_many0_fwd {α : Type} {f : Char → Bool} {cap : Option (List Char)}
    {k : List Char → Option (List Char) → Option α} {s u v : List Char} {a : α}
    (hs : s = u ++ v) (hu : ∀ ch ∈ u, f ch = true)
    (hv : v = [] ∨ ∃ c t, v = c :: t ∧ f c = false) (hk : k v cap = some a) :
    matchCPS (.many0 f) s cap k = some a :=
  greedyCPS_all hs hu hv hk

theorem matchCPS_many1_fwd {α : Type} {f : Char → Bool} {cap : Option (List Char)}
    {k : List Char → Option (List Char) → Option α} {s u v : List Char} {a : α}
    (hs : s = u ++ v) (hune : u ≠ []) (hu : ∀ ch ∈ u, f ch = true)
    (hv : v = [] ∨ ∃ c t, v = c :: t ∧ f c = false) (hk : k v cap = some a) :
    matchCPS (.many1 f) s cap k = some a := by
  subst hs
  cases u with
  | nil => exact absurd rfl hune
  | cons c u2 =>
    have hc : f c = true := hu c (by simp)
    have := greedyCPS_all (show u2 ++ v = u2 ++ v from rfl)
      (fun ch hch => hu ch (List.mem_cons_of_mem _ hch)) hv hk
    simpa [matchCPS, hc] using this

theorem matchCPS_str_fwd {α : Type} {cs : List Char} {cap : Option (List Char)}
    {k : List Char → Option (List Char) → Option α} {s v : List Char}
    (hs : s = cs ++ v) : matchCPS (.str cs) s cap k = k v cap := by
  subst hs
  simp [matchCPS, listIsPre_self_append]

theorem matchCPS_str_fail {α : Type} {cs : List Char} {cap : Option (List Char)}
    {k : List Char → Option (List Char) → Option α} {s : List Char}
    (h : listIsPre cs s = false) : matchCPS (.str cs) s cap k = none := by
  simp [matchCPS, h]

theorem matchCPS_eos_fwd {α : Type} {cap : Option (List Char)}
    {k : List Char → Option (List Char) → Option α} :
    matchCPS .eos [] cap k = k [] cap := by
  simp [matchCPS]

theorem matchCPS_alt_left {α : Type} {a b : RE} {cap : Option (List Char)}
    {k : List Char → Option (List Char) → Option α} {s : List Char} {x : α}
    (h : matchCPS a s cap k = some x) : matchCPS (.alt a b) s cap k = some x := by
  simp [matchCPS, h]

theorem matchCPS_alt_right {α : Type} {a b : RE} {cap : Option (List Char)}
    {k : List Char → Option (List Char) → Option α} {s : List Char} {x : α}
    (hn : matchCPS a s cap k = none) (h : matchCPS b s cap k = some x) :
    matchCPS (.alt a b) s cap k = some x := by
  simp [matchCPS, hn, h]

theorem matchCPS_opt_hit {α : Type} {a : RE} {cap : Option (List Char)}
    {k : List Char → Option (List Char) → Option α} {s : List Char} {x : α}
    (h : matchCPS a s cap k = some x) : matchCPS (.opt a) s cap k = some x := by
  simp [matchCPS, h]

theorem matchCPS_opt_miss {α : Type} {a : RE} {cap : Option (List Char)}
    {k : List Char → Option (List Char) → Option α} {s : List Char}
    (hn : matchCPS a s cap k = none) : matchCPS (.opt a) s cap k = k s cap := by
  simp [matchCPS, hn]

theorem greedyCPS_inv {α : Type} {f : Char → Bool} {cap : Option (List Char)}
    {k : List Char → Option (List Char) → Option α} {s : List Char} {a : α}
    (h : greedyCPS f cap k s = some a) :
    ∃ u v, s = u ++ v ∧ (∀ ch ∈ u, f ch = true) ∧ k v cap = some a := by
  induction s with
  | nil => exact ⟨[], [], rfl, by simp, h⟩
  | cons c t ih =>
    by_cases hc : f c = true
    · simp only [greedyCPS, hc, if_pos] at h
      cases hg : greedyCPS f cap k t with
      | some a2 =>
        rw [hg] at h
        simp only at h
        obtain rfl : a2 = a := Option.some.inj h
        obtain ⟨u, v, rfl, hu, hk⟩ := ih hg
        refine ⟨c :: u, v, rfl, ?_, hk⟩
        intro ch hch
        rcases List.mem_cons.mp hch with rfl | hch
        · exact hc
        · exact hu ch hch
      | none =>
        rw [hg] at h
        simp only at h
        exact ⟨[], c :: t, rfl, by simp, h⟩
    · have hc2 : f c = false := by simpa using hc
      simp only [greedyCPS, hc2, Bool.false_eq_true, if_neg, not_false_eq_true] at h
      exact ⟨[], c :: t, rfl, by simp, h⟩

theorem matchCPS_many0_inv {α : Type} {f : Char → Bool} {cap : Option (List Char)}
    {k : List Char → Option (List Char) → Option α} {s : List Char} {a : α}
    (h : matchCPS (.many0 f) s cap k = some a) :
    ∃ u v, s = u ++ v ∧ (∀ ch ∈ u, f ch = true) ∧ k v cap = some a :=
  greedyCPS_inv h

theorem matchCPS_many1_inv {α : Type} {f : Char → Bool} {cap : Option (List Char)}
    {k : List Char → Option (List Char) → Option α} {s : List Char} {a : α}
    (h : matchCPS (.many1 f) s cap k = some a) :
    ∃ u v, s = u ++ v ∧ u ≠ [] ∧ (∀ ch ∈ u, f ch = true) ∧ k v cap = some a := by
  cases s with
  | nil => simp [matchCPS] at h
  | cons c t =>
    by_cases hc : f c = true
    · simp only [matchCPS, hc, if_pos] at h
      obtain ⟨u, v, rfl, hu, hk⟩ := greedyCPS_inv h
      refine ⟨c :: u, v, rfl, by simp, ?_, hk⟩
      intro ch hch
      rcases List.mem_cons.mp hch with rfl | hch
      · exact hc
      · exact hu ch hch
    · have hc2 : f c = false := by simpa using hc
      simp [matchCPS, hc2] at h

theorem matchCPS_str_inv {α : Type} {cs : List Char} {cap : Option (List Char)}
    {k : List Char → Option (List Char) → Option α} {s : List Char} {a : α}
    (h : matchCPS (.str cs) s cap k = some a) :
    ∃ v, s = cs ++ v ∧ k v cap = some a := by
  by_cases hp : listIsPre cs s = true
  · obtain ⟨v, rfl⟩ := listIsPre_exists hp
    refine ⟨v, rfl, ?_⟩
    rwa [matchCPS_str_fwd rfl] at h
  · have hp2 : listIsPre cs s = false := by simpa using hp
    simp [matchCPS, hp2] at h

theorem matchCPS_eos_inv {α : Type} {cap : Option (List Char)}
    {k : List Char → Option (List Char) → Option α} {s : List Char} {a : α}
    (h : matchCPS .eos s cap k = some a) : s = [] ∧ k [] cap = some a := by
  cases s with
  | nil => exact ⟨rfl, by simpa [matchCPS] using h⟩
  | cons c t => simp [matchCPS] at h

/-!  ## Claim C9 — `re.sub` scanning lemmas -/

theorem reSubAllFuel_succ (r : RE) (repl : List Char) (m : Nat) (s : List Char) :
    reSubAllFuel r repl (m + 1) s =
      match reMatchEnd r s with
      | some rest =>
        if rest.length < s.length then repl ++ reSubAllFuel r repl m rest
        else repl ++ rest
      | none =>
        match s with
        | [] => []
        | c :: t => c :: reSubAllFuel r repl m t := rfl

theorem reSubAllFuel_congr {r : RE} {repl : List Char} :
    ∀ (f1 f2 : Nat) (s : List Char), s.length < f1 → s.length < f2 →
      reSubAllFuel r repl f1 s = reSubAllFuel r repl f2 s := by
  intro f1
  induction f1 with
  | zero => intro f2 s h1 h2; exact absurd h1 (Nat.not_lt_zero _)
  | succ m ih =>
    intro f2 s h1 h2
    cases f2 with
    | zero => exact absurd h2 (Nat.not_lt_zero _)
    | succ m2 =>
      rw [reSubAllFuel_succ, reSubAllFuel_succ]
      cases hm : reMatchEnd r s with
      | some rest =>
        dsimp only
        by_cases hl : rest.length < s.length
        · rw [if_pos hl, if_pos hl, ih m2 rest (by omega) (by omega)]
        · rw [if_neg hl, if_neg hl]
      | none =>
        cases s with
        | nil => rfl
        | cons c t =>
          dsimp only
          have hlen : t.length < m ∧ t.length < m2 := by
            simp only [List.length_cons] at h1 h2
            omega
          rw [ih m2 t hlen.1 hlen.2]

theorem reSubAll_nil {r : RE} {repl : List Char} (h : reMatchEnd r [] = none) :
    reSubAll r repl [] = [] := by
  unfold reSubAll
  rw [reSubAllFuel_succ, h]

theorem reSubAll_none_step {r : RE} {repl : List Char} {c : Char} {t : List Char}
    (h : reMatchEnd r (c :: t) = none) :
    reSubAll r repl (c :: t) = c :: reSubAll r repl t := by
  unfold reSubAll
  rw [reSubAllFuel_succ, h]
  rfl

theorem reSubAll_match {r : RE} {repl s rest : List Char}
    (h : reMatchEnd r s = some rest) (hl : rest.length < s.length) :
    reSubAll r repl s = repl ++ reSubAll r repl rest := by
  unfold reSubAll
  rw [reSubAllFuel_succ, h]
  dsimp only
  rw [if_pos hl]
  congr 1
  exact reSubAllFuel_congr s.length (rest.length + 1) rest (by omega) (by omega)

theorem reSubAll_eq_self {r : RE} {repl s : List Char}
    (h : ∀ t, t <:+ s → reMatchEnd r t = none) : reSubAll r repl s = s := by
  induction s with
  | nil => exact reSubAll_nil (h [] (List.suffix_refl _))
  | cons c t ih =>
    rw [reSubAll_none_step (h _ (List.suffix_refl _))]
    rw [ih fun u hu => h u (hu.trans (List.suffix_cons c t))]

theorem reSubAll_append {r : RE} {repl : List Char} (pre rest : List Char)
    (hpre : ∀ t, t <:+ pre ++ rest → rest.length < t.length →
      reMatchEnd r t = none) :
    reSubAll r repl (pre ++ rest) = pre ++ reSubAll r repl rest := by
  induction pre with
  | nil => simp
  | cons c p ih =>
    have hwhole : (c :: p) ++ rest = c :: (p ++ rest) := List.cons_append c p rest
    have hstep : reMatchEnd r (c :: (p ++ rest)) = none := by
      refine hpre (c :: (p ++ rest)) ?_ ?_
      · rw [hwhole]
      · simp only [List.length_cons, List.length_append]
        omega
    have ihh : ∀ t, t <:+ p ++ rest → rest.length < t.length →
        reMatchEnd r t = none := by
      intro t ht hl
      refine hpre t (ht.trans ?_) hl
      rw [hwhole]
      exact List.suffix_cons c (p ++ rest)
    rw [hwhole, reSubAll_none_step hstep, ih ihh]
    rfl

theorem suffix_head_mem {pre rest t : List Char} (ht : t <:+ pre ++ rest)
    (hl : rest.length < t.length) : ∃ c t2, t = c :: t2 ∧ c ∈ pre := by
  obtain ⟨u, hu⟩ := ht
  cases t with
  | nil => simp at hl
  | cons c t2 =>
    refine ⟨c, t2, rfl, ?_⟩
    have hlen : u.length + (t2.length + 1) = pre.length + rest.length := by
      have := congrArg List.length hu
      simpa using this
    have hl2 : rest.length < t2.length + 1 := by simpa using hl
    have hul : u.length < pre.length := by omega
    have h1 : (u ++ c :: t2)[u.length]? = some c := by
      rw [List.getElem?_append_right (Nat.le_refl _)]
      simp
    rw [hu, List.getElem?_append, if_pos hul] at h1
    exact List.getElem?_mem h1

theorem getLast?_append_right {u v : List Char} (hv : v ≠ []) :
    (u ++ v).getLast? = v.getLast? := by
  induction u with
  | nil => rfl
  | cons c t ih =>
    cases htv : t ++ v with
    | nil =>
      exfalso
      rcases List.append_eq_nil.mp htv with ⟨-, rfl⟩
      exact hv rfl
    | cons b bs =>
      rw [List.cons_append, htv, List.getLast?_cons_cons, ← htv, ih]

theorem getLast?_mem {v : List Char} {c : Char} (h : v.getLast? = some c) :
    c ∈ v := by
  induction v with
  | nil => simp at h
  | cons b bs ih =>
    cases bs with
    | nil =>
      have hb : b = c := by simpa using h
      simp [hb]
    | cons x xs =>
      rw [List.getLast?_cons_cons] at h
      exact List.mem_cons_of_mem _ (ih h)

/-!  ## Claim C9 — pattern-specific lemmas -/

/-- Inversion for `\s+X\s+\d+\s*$`: a successful match decomposes the input
completely into whitespace, `X`, whitespace, digits, trailing whitespace. -/
theorem reTrailX_inv {α : Type} {s : List Char} {cap : Option (List Char)}
    {k : List Char → Option (List Char) → Option α} {a : α}
    (h : matchCPS reTrailX s cap k = some a) :
    ∃ w1 w2 d w3, s = w1 ++ 'X' :: (w2 ++ (d ++ w3)) ∧
      w1 ≠ [] ∧ (∀ ch ∈ w1, pyIsSpace ch = true) ∧
      w2 ≠ [] ∧ (∀ ch ∈ w2, pyIsSpace ch = true) ∧
      d ≠ [] ∧ (∀ ch ∈ d, ch.isDigit = true) ∧
      (∀ ch ∈ w3, pyIsSpace ch = true) ∧ k [] cap = some a := by
  have h1 : matchCPS (.many1 wsC) s cap (fun s1 c1 =>
      matchCPS (.seq (.str ['X']) (.seq (.many1 wsC)
        (.seq (.many1 digC) (.seq (.many0 wsC) .eos)))) s1 c1 k) = some a := h
  obtain ⟨w1, v1, rfl, hw1ne, hw1, hk1⟩ := matchCPS_many1_inv h1
  have hk1b : matchCPS (.str ['X']) v1 cap (fun s1 c1 =>
      matchCPS (.seq (.many1 wsC)
        (.seq (.many1 digC) (.seq (.many0 wsC) .eos))) s1 c1 k) = some a := hk1
  obtain ⟨v2, hv1, hk2⟩ := matchCPS_str_inv hk1b
  have hk2b : matchCPS (.many1 wsC) v2 cap (fun s1 c1 =>
      matchCPS (.seq (.many1 digC) (.seq (.many0 wsC) .eos)) s1 c1 k) = some a := hk2
  obtain ⟨w2, v3, hv2, hw2ne, hw2, hk3⟩ := matchCPS_many1_inv hk2b
  have hk3b : matchCPS (.many1 digC) v3 cap (fun s1 c1 =>
      matchCPS (.seq (.many0 wsC) .eos) s1 c1 k) = some a := hk3
  obtain ⟨d, v4, hv3, hdne, hd, hk4⟩ := matchCPS_many1_inv hk3b
  have hk4b : matchCPS (.many0 wsC) v4 cap (fun s1 c1 =>
      matchCPS .eos s1 c1 k) = some a := hk4
  obtain ⟨w3, v5, hv4, hw3, hk5⟩ := matchCPS_many0_inv hk4b
  obtain ⟨hv5, hk⟩ := matchCPS_eos_inv hk5
  subst hv5
  refine ⟨w1, w2, d, w3, ?_, hw1ne, hw1, hw2ne, hw2, hdne, hd, hw3, hk⟩
  rw [hv1, hv2, hv3, hv4]
  simp

/-- A successful `\s*\d+(?:,\d+)?(?:G|KG)X\d+U(?:N)?\s*` match implies the
input holds a digit. -/
theorem rePack_inv_digit {α : Type} {s : List Char} {cap : Option (List Char)}
    {k : List Char → Option (List Char) → Option α} {a : α}
    (h : matchCPS rePack s cap k = some a) : ∃ ch ∈ s, ch.isDigit = true := by
  have h1 : matchCPS (.many0 wsC) s cap (fun s1 c1 =>
      matchCPS (.seq (.many1 digC)
        (.seq (.opt (.seq (.str [',']) (.many1 digC)))
          (.seq (.alt (.str ['G']) (.str ['K', 'G']))
            (.seq (.str ['X']) (.seq (.many1 digC)
              (.seq (.str ['U']) (.seq (.opt (.str ['N'])) (.many0 wsC)))))))) s1 c1 k) =
      some a := h
  obtain ⟨w0, v1, rfl, _, hk1⟩ := matchCPS_many0_inv h1
  have hk1b : matchCPS (.many1 digC) v1 cap (fun s1 c1 =>
      matchCPS (.seq (.opt (.seq (.str [',']) (.many1 digC)))
        (.seq (.alt (.str ['G']) (.str ['K', 'G']))
          (.seq (.str ['X']) (.seq (.many1 digC)
            (.seq (.str ['U']) (.seq (.opt (.str ['N']))
              (.many0 wsC))))))) s1 c1 k) = some a := hk1
  obtain ⟨d1, v2, hv1, hdne, hd, _⟩ := matchCPS_many1_inv hk1b
  obtain ⟨c0, hc0⟩ := List.exists_mem_of_ne_nil d1 hdne
  refine ⟨c0, ?_, hd c0 hc0⟩
  rw [hv1]
  simp [hc0]

theorem reTrailX_none_nil {α : Type} {cap : Option (List Char)}
    {k : List Char → Option (List Char) → Option α} :
    matchCPS reTrailX [] cap k = none := by
  have : matchCPS (.many1 wsC) ([] : List Char) cap (fun s1 c1 =>
      matchCPS (.seq (.str ['X']) (.seq (.many1 wsC)
        (.seq (.many1 digC) (.seq (.many0 wsC) .eos)))) s1 c1 k) = none := by
    simp [matchCPS]
  exact this

theorem rePack_none_nil {α : Type} {cap : Option (List Char)}
    {k : List Char → Option (List Char) → Option α} :
    matchCPS rePack [] cap k = none := by
  have : matchCPS (.many0 wsC) ([] : List Char) cap (fun s1 c1 =>
      matchCPS (.seq (.many1 digC)
        (.seq (.opt (.seq (.str [',']) (.many1 digC)))
          (.seq (.alt (.str ['G']) (.str ['K', 'G']))
            (.seq (.str ['X']) (.seq (.many1 digC)
              (.seq (.str ['U']) (.seq (.opt (.str ['N'])) (.many0 wsC)))))))) s1 c1 k) =
      none := by
    simp [matchCPS, greedyCPS]
  exact this

theorem reTrailX_none_head {α : Type} {c : Char} {t : List Char}
    {cap : Option (List Char)} {k : List Char → Option (List Char) → Option α}
    (hc : pyIsSpace c = false) : matchCPS reTrailX (c :: t) cap k = none := by
  have : matchCPS (.many1 wsC) (c :: t) cap (fun s1 c1 =>
      matchCPS (.seq (.str ['X']) (.seq (.many1 wsC)
        (.seq (.many1 digC) (.seq (.many0 wsC) .eos)))) s1 c1 k) = none := by
    simp [matchCPS, wsC, hc]
  exact this

theorem rePack_none_head {α : Type} {c : Char} {t : List Char}
    {cap : Option (List Char)} {k : List Char → Option (List Char) → Option α}
    (hws : pyIsSpace c = false) (hd : c.isDigit = false) :
    matchCPS rePack (c :: t) cap k = none := by
  cases h : matchCPS rePack (c :: t) cap k with
  | none => rfl
  | some a =>
    exfalso
    have h1 : matchCPS (.many0 wsC) (c :: t) cap (fun s1 c1 =>
        matchCPS (.seq (.many1 digC)
          (.seq (.opt (.seq (.str [',']) (.many1 digC)))
            (.seq (.alt (.str ['G']) (.str ['K', 'G']))
              (.seq (.str ['X']) (.seq (.many1 digC)
                (.seq (.str ['U']) (.seq (.opt (.str ['N'])) (.many0 wsC)))))))) s1 c1 k) =
        some a := h
    obtain ⟨w0, v1, hv, hw0, hk1⟩ := matchCPS_many0_inv h1
    have hk1b : matchCPS (.many1 digC) v1 cap (fun s1 c1 =>
        matchCPS (.seq (.opt (.seq (.str [',']) (.many1 digC)))
          (.seq (.alt (.str ['G']) (.str ['K', 'G']))
            (.seq (.str ['X']) (.seq (.many1 digC)
              (.seq (.str ['U']) (.seq (.opt (.str ['N']))
                (.many0 wsC))))))) s1 c1 k) = some a := hk1
    obtain ⟨d1, v2, hv1, hdne, hd1, -⟩ := matchCPS_many1_inv hk1b
    -- the first character is neither whitespace nor digit, but the
    -- decomposition starts with whitespace then a digit
    cases w0 with
    | nil =>
      cases d1 with
      | nil => exact hdne rfl
      | cons x xs =>
        rw [hv1] at hv
        obtain rfl : c = x := by simpa using congrArg List.head? hv
        exact absurd (hd1 c (by simp)) (by simp [digC, hd])
    | cons y ys =>
      obtain rfl : c = y := by simpa using congrArg List.head? hv
      exact absurd (hw0 c (by simp)) (by simp [wsC, hws])

/-!  ## Claim C9 — computing the two normalizer substitutions -/

/-- The packaging token shape `<weight>(G|KG)X<units>U(N)?` with a decimal
COMMA weight (the only decimal separator the source pattern accepts). -/
def PackTok (t : List Char) : Prop :=
  ∃ wd mid um ud nt,
    t = wd ++ (mid ++ (um ++ 'X' :: (ud ++ 'U' :: nt))) ∧
    wd ≠ [] ∧ (∀ ch ∈ wd, ch.isDigit = true) ∧
    (mid = [] ∨ ∃ wf, wf ≠ [] ∧ (∀ ch ∈ wf, ch.isDigit = true) ∧ mid = ',' :: wf) ∧
    (um = ['G'] ∨ um = ['K', 'G']) ∧
    ud ≠ [] ∧ (∀ ch ∈ ud, ch.isDigit = true) ∧
    (nt = [] ∨ nt = ['N'])

theorem matchCPS_seq {α : Type} (a b : RE) (s : List Char)
    (cap : Option (List Char)) (k : List Char → Option (List Char) → Option α) :
    matchCPS (.seq a b) s cap k =
      matchCPS a s cap (fun s1 c1 => matchCPS b s1 c1 k) := rfl

theorem matchCPS_seq_str_fail {α : Type} {cs : List Char} {b : RE}
    {s : List Char} {cap : Option (List Char)}
    {k : List Char → Option (List Char) → Option α}
    (h : listIsPre cs s = false) : matchCPS (.seq (.str cs) b) s cap k = none := by
  rw [matchCPS_seq]
  exact matchCPS_str_fail h

theorem packTail {α : Type} {ud nt : List Char} {cap : Option (List Char)}
    {k : List Char → Option (List Char) → Option α} {a : α}
    (hudne : ud ≠ []) (hud : ∀ ch ∈ ud, ch.isDigit = true)
    (hnt : nt = [] ∨ nt = ['N']) (hk : k [] cap = some a) :
    matchCPS (.seq (.str ['X']) (.seq (.many1 digC) (.seq (.str ['U'])
      (.seq (.opt (.str ['N'])) (.many0 wsC))))) ('X' :: (ud ++ 'U' :: nt)) cap k =
      some a := by
  rw [matchCPS_seq,
    matchCPS_str_fwd (show ('X' :: (ud ++ 'U' :: nt)) = ['X'] ++ (ud ++ 'U' :: nt)
      from rfl)]
  try dsimp only
  rw [matchCPS_seq]
  refine matchCPS_many1_fwd (show _ = ud ++ ('U' :: nt) from rfl) hudne
    (fun ch hch => by simpa [digC] using hud ch hch)
    (Or.inr ⟨'U', nt, rfl, by decide⟩) ?_
  try dsimp only
  rw [matchCPS_seq,
    matchCPS_str_fwd (show ('U' :: nt) = ['U'] ++ nt from rfl)]
  try dsimp only
  rw [matchCPS_seq]
  rcases hnt with rfl | rfl
  · rw [matchCPS_opt_miss (matchCPS_str_fail (by simp [listIsPre]))]
    try dsimp only
    refine matchCPS_many0_fwd (show ([] : List Char) = [] ++ [] from rfl)
      (by simp) (Or.inl rfl) ?_
    exact hk
  · refine matchCPS_opt_hit ?_
    rw [matchCPS_str_fwd (show (['N'] : List Char) = ['N'] ++ [] from rfl)]
    try dsimp only
    refine matchCPS_many0_fwd (show ([] : List Char) = [] ++ [] from rfl)
      (by simp) (Or.inl rfl) ?_
    exact hk

theorem packFromUm {α : Type} {um ud nt : List Char} {cap : Option (List Char)}
    {k : List Char → Option (List Char) → Option α} {a : α}
    (hum : um = ['G'] ∨ um = ['K', 'G']) (hudne : ud ≠ [])
    (hud : ∀ ch ∈ ud, ch.isDigit = true) (hnt : nt = [] ∨ nt = ['N'])
    (hk : k [] cap = some a) :
    matchCPS (.seq (.alt (.str ['G']) (.str ['K', 'G'])) (.seq (.str ['X'])
        (.seq (.many1 digC) (.seq (.str ['U']) (.seq (.opt (.str ['N']))
          (.many0 wsC))))))
      (um ++ 'X' :: (ud ++ 'U' :: nt)) cap k = some a := by
  rw [matchCPS_seq]
  rcases hum with rfl | rfl
  · simp only [List.cons_append, List.nil_append]
    refine matchCPS_alt_left ?_
    rw [matchCPS_str_fwd (show ('G' :: 'X' :: (ud ++ 'U' :: nt)) =
      ['G'] ++ ('X' :: (ud ++ 'U' :: nt)) from rfl)]
    try dsimp only
    exact packTail hudne hud hnt hk
  · simp only [List.cons_append, List.nil_append]
    refine matchCPS_alt_right (matchCPS_str_fail (by simp [listIsPre])) ?_
    rw [matchCPS_str_fwd (show ('K' :: 'G' :: 'X' :: (ud ++ 'U' :: nt)) =
      ['K', 'G'] ++ ('X' :: (ud ++ 'U' :: nt)) from rfl)]
    try dsimp only
    exact packTail hudne hud hnt hk

theorem packFromMid {α : Type} {mid um ud nt : List Char}
    {cap : Option (List Char)} {k : List Char → Option (List Char) → Option α}
    {a : α}
    (hmid : mid = [] ∨ ∃ wf, wf ≠ [] ∧ (∀ ch ∈ wf, ch.isDigit = true) ∧
      mid = ',' :: wf)
    (hum : um = ['G'] ∨ um = ['K', 'G']) (hudne : ud ≠ [])
    (hud : ∀ ch ∈ ud, ch.isDigit = true) (hnt : nt = [] ∨ nt = ['N'])
    (hk : k [] cap = some a) :
    matchCPS (.seq (.opt (.seq (.str [',']) (.many1 digC)))
        (.seq (.alt (.str ['G']) (.str ['K', 'G'])) (.seq (.str ['X'])
          (.seq (.many1 digC) (.seq (.str ['U']) (.seq (.opt (.str ['N']))
            (.many0 wsC)))))))
      (mid ++ (um ++ 'X' :: (ud ++ 'U' :: nt))) cap k = some a := by
  rw [matchCPS_seq]
  rcases hmid with rfl | ⟨wf, hwfne, hwf, rfl⟩
  · rw [matchCPS_opt_miss (matchCPS_seq_str_fail
      (by rcases hum with rfl | rfl <;> simp [listIsPre]))]
    try dsimp only
    simp only [List.nil_append]
    exact packFromUm hum hudne hud hnt hk
  · refine matchCPS_opt_hit ?_
    rw [matchCPS_seq,
      matchCPS_str_fwd (show ((',' :: wf) ++ (um ++ 'X' :: (ud ++ 'U' :: nt))) =
        [','] ++ (wf ++ (um ++ 'X' :: (ud ++ 'U' :: nt))) from by simp)]
    try dsimp only
    have hbound : um ++ 'X' :: (ud ++ 'U' :: nt) = [] ∨
        ∃ c t, um ++ 'X' :: (ud ++ 'U' :: nt) = c :: t ∧ digC c = false := by
      rcases hum with rfl | rfl
      · exact Or.inr ⟨'G', 'X' :: (ud ++ 'U' :: nt), by simp, by decide⟩
      · exact Or.inr ⟨'K', 'G' :: 'X' :: (ud ++ 'U' :: nt), by simp, by decide⟩
    refine matchCPS_many1_fwd
      (show _ = wf ++ (um ++ 'X' :: (ud ++ 'U' :: nt)) from rfl) hwfne
      (fun ch hch => by simpa [digC] using hwf ch hch) hbound ?_
    try dsimp only
    exact packFromUm hum hudne hud hnt hk

theorem rePack_matchEnd {t : List Char} (ht : PackTok t) :
    reMatchEnd rePack (' ' :: t) = some [] := by
  obtain ⟨wd, mid, um, ud, nt, rfl, hwdne, hwd, hmid, hum, hudne, hud, hnt⟩ := ht
  unfold reMatchEnd rePack
  rw [matchCPS_seq]
  cases wd with
  | nil => exact absurd rfl hwdne
  | cons w0 wt =>
    refine matchCPS_many0_fwd (show (' ' :: ((w0 :: wt) ++ (mid ++ (um ++
        'X' :: (ud ++ 'U' :: nt))))) = [' '] ++ ((w0 :: wt) ++ (mid ++ (um ++
        'X' :: (ud ++ 'U' :: nt)))) from rfl) (by decide)
      (Or.inr ⟨w0, wt ++ (mid ++ (um ++ 'X' :: (ud ++ 'U' :: nt))), by simp,
        by simpa [wsC] using digit_not_ws (hwd w0 (by simp))⟩) ?_
    try dsimp only
    rw [matchCPS_seq]
    have hbound : mid ++ (um ++ 'X' :: (ud ++ 'U' :: nt)) = [] ∨
        ∃ c t2, mid ++ (um ++ 'X' :: (ud ++ 'U' :: nt)) = c :: t2 ∧
          digC c = false := by
      rcases hmid with rfl | ⟨wf, -, -, rfl⟩
      · rcases hum with rfl | rfl
        · exact Or.inr ⟨'G', 'X' :: (ud ++ 'U' :: nt), by simp, by decide⟩
        · exact Or.inr ⟨'K', 'G' :: 'X' :: (ud ++ 'U' :: nt), by simp, by decide⟩
      · exact Or.inr ⟨',', wf ++ (um ++ 'X' :: (ud ++ 'U' :: nt)), by simp,
          by decide⟩
    refine matchCPS_many1_fwd
      (show _ = (w0 :: wt) ++ (mid ++ (um ++ 'X' :: (ud ++ 'U' :: nt)))
        from rfl)
      (by simp) (fun ch hch => by simpa [digC] using hwd ch hch) hbound ?_
    try dsimp only
    exact packFromMid hmid hum hudne hud hnt rfl

theorem reTrailX_matchEnd {ds : List Char} (hne : ds ≠ [])
    (hd : ∀ ch ∈ ds, ch.isDigit = true) :
    reMatchEnd reTrailX (' ' :: 'X' :: ' ' :: ds) = some [] := by
  cases ds with
  | nil => exact absurd rfl hne
  | cons d0 dt =>
    unfold reMatchEnd reTrailX
    rw [matchCPS_seq]
    refine matchCPS_many1_fwd (show (' ' :: 'X' :: ' ' :: d0 :: dt) =
        [' '] ++ ('X' :: ' ' :: d0 :: dt) from rfl) (by simp) (by decide)
      (Or.inr ⟨'X', ' ' :: d0 :: dt, rfl, by decide⟩) ?_
    try dsimp only
    rw [matchCPS_seq,
      matchCPS_str_fwd (show ('X' :: ' ' :: d0 :: dt) =
        ['X'] ++ (' ' :: d0 :: dt) from rfl)]
    try dsimp only
    rw [matchCPS_seq]
    refine matchCPS_many1_fwd (show (' ' :: d0 :: dt) = [' '] ++ (d0 :: dt)
        from rfl) (by simp) (by decide)
      (Or.inr ⟨d0, dt, rfl, by simpa [wsC] using digit_not_ws (hd d0 (by simp))⟩) ?_
    try dsimp only
    rw [matchCPS_seq]
    refine matchCPS_many1_fwd (show (d0 :: dt) = (d0 :: dt) ++ [] from by simp)
      (by simp) (fun ch hch => by simpa [digC] using hd ch hch) (Or.inl rfl) ?_
    try dsimp only
    rw [matchCPS_seq]
    refine matchCPS_many0_fwd (show ([] : List Char) = [] ++ [] from rfl)
      (by simp) (Or.inl rfl) ?_
    try dsimp only
    rw [matchCPS_eos_fwd]
theorem reTrailX_matchEnd_none_of_last {t : List Char}
    (hlast : ∀ c, t.getLast? = some c → pyIsSpace c = false ∧ c.isDigit = false) :
    reMatchEnd reTrailX t = none := by
  cases h : reMatchEnd reTrailX t with
  | none => rfl
  | some a =>
    exfalso
    obtain ⟨w1, w2, d, w3, hteq, -, hw1, -, hw2, hdne, hd, hw3, -⟩ := reTrailX_inv h
    have hsplit : t = (w1 ++ 'X' :: w2) ++ (d ++ w3) := by
      rw [hteq]
      simp
    rcases hw3e : w3 with _ | ⟨c3, t3⟩
    · have hl2 : t.getLast? = d.getLast? := by
        rw [hsplit, hw3e, List.append_nil]
        exact getLast?_append_right hdne
      obtain ⟨c, hc⟩ : ∃ c, d.getLast? = some c := by
        cases hdl : d.getLast? with
        | some c => exact ⟨c, rfl⟩
        | none =>
          rw [List.getLast?_eq_none_iff] at hdl
          exact absurd hdl hdne
      have hcd : c.isDigit = true := hd c (getLast?_mem hc)
      have hcon := (hlast c (by rw [hl2, hc])).2
      rw [hcon] at hcd
      exact Bool.false_ne_true hcd
    · have hl2 : t.getLast? = w3.getLast? := by
        rw [hsplit, hw3e]
        rw [getLast?_append_right (by simp)]
        exact getLast?_append_right (by simp)
      obtain ⟨c, hc⟩ : ∃ c, w3.getLast? = some c := by
        rw [hw3e]
        cases hg : (c3 :: t3).getLast? with
        | some c => exact ⟨c, rfl⟩
        | none =>
          rw [List.getLast?_eq_none_iff] at hg
          simp at hg
      have hcw : pyIsSpace c = true := hw3 c (getLast?_mem hc)
      have hcon := (hlast c (by rw [hl2, hc])).1
      rw [hcon] at hcw
      exact Bool.false_ne_true hcw

theorem reMatchEnd_reTrailX_nil : reMatchEnd reTrailX [] = none :=
  reTrailX_none_nil

theorem reMatchEnd_rePack_nil : reMatchEnd rePack [] = none :=
  rePack_none_nil

theorem reMatchEnd_reTrailX_head {c : Char} {t : List Char}
    (hc : pyIsSpace c = false) : reMatchEnd reTrailX (c :: t) = none :=
  reTrailX_none_head hc

theorem reMatchEnd_rePack_head {c : Char} {t : List Char}
    (hws : pyIsSpace c = false) (hd : c.isDigit = false) :
    reMatchEnd rePack (c :: t) = none :=
  rePack_none_head hws hd

theorem ws_not_digit {c : Char} (h : pyIsSpace c = true) : c.isDigit = false := by
  cases hd : c.isDigit
  · rfl
  · rw [digit_not_ws hd] at h
    exact absurd h (by simp)

theorem getLast?_of_suffix {s t : List Char} (h : t <:+ s) (hne : t ≠ []) :
    s.getLast? = t.getLast? := by
  obtain ⟨u, rfl⟩ := h
  exact getLast?_append_right hne

/-- If the last character of `s` is neither whitespace nor a digit, the
trailing-`X` pattern matches at no position and the substitution is the
identity. -/
theorem reSubAll_reTrailX_id {s : List Char} {cl : Char}
    (hl : s.getLast? = some cl) (hws : pyIsSpace cl = false)
    (hd : cl.isDigit = false) : reSubAll reTrailX [] s = s := by
  refine reSubAll_eq_self fun t ht => ?_
  refine reTrailX_matchEnd_none_of_last fun c hc => ?_
  have htne : t ≠ [] := by
    intro h0
    rw [h0] at hc
    simp at hc
  have hs : s.getLast? = some c := by rw [getLast?_of_suffix ht htne, hc]
  rw [hl] at hs
  obtain rfl : cl = c := by simpa using hs
  exact ⟨hws, hd⟩

theorem rePack_matchEnd_none_noDigit {t : List Char}
    (h : ∀ ch ∈ t, ch.isDigit = false) : reMatchEnd rePack t = none := by
  cases hm : reMatchEnd rePack t with
  | none => rfl
  | some a =>
    exfalso
    have hm2 : matchCPS rePack t none (fun rest _ => some rest) = some a := hm
    obtain ⟨ch, hmem, hdig⟩ := rePack_inv_digit hm2
    rw [h ch hmem] at hdig
    exact Bool.false_ne_true hdig

/-- If `s` holds no digit at all, the packaging substitution is the
identity. -/
theorem reSubAll_rePack_id_noDigit {s : List Char}
    (h : ∀ ch ∈ s, ch.isDigit = false) : reSubAll rePack [' '] s = s := by
  refine reSubAll_eq_self fun t ht => ?_
  exact rePack_matchEnd_none_noDigit fun ch hch => h ch (ht.subset hch)

theorem takeWhile_append_of_all {p : Char → Bool} {w rest : List Char}
    (h : ∀ ch ∈ w, p ch = true) :
    (w ++ rest).takeWhile p = w ++ rest.takeWhile p := by
  induction w with
  | nil => rfl
  | cons c t ih =>
    have hc : p c = true := h c (List.mem_cons_self c t)
    have ht : (t ++ rest).takeWhile p = t ++ rest.takeWhile p :=
      ih fun ch hch => h ch (List.mem_cons_of_mem c hch)
    simp [List.takeWhile_cons, hc, ht]

theorem dropWhile_append_of_all {p : Char → Bool} {w rest : List Char}
    (h : ∀ ch ∈ w, p ch = true) :
    (w ++ rest).dropWhile p = rest.dropWhile p := by
  induction w with
  | nil => rfl
  | cons c t ih =>
    have hc : p c = true := h c (List.mem_cons_self c t)
    have ht := ih fun ch hch => h ch (List.mem_cons_of_mem c hch)
    simp [List.dropWhile_cons, hc, ht]

theorem pySplitWSFuel_succ (m : Nat) (c : Char) (t : List Char) :
    pySplitWSFuel (m + 1) (c :: t) =
      if pyIsSpace c then pySplitWSFuel m t
      else (c :: t.takeWhile (fun x => !pyIsSpace x)) ::
        pySplitWSFuel m (t.dropWhile (fun x => !pyIsSpace x)) := rfl

theorem pySplitWSFuel_congr :
    ∀ (f1 f2 : Nat) (s : List Char), s.length < f1 → s.length < f2 →
      pySplitWSFuel f1 s = pySplitWSFuel f2 s := by
  intro f1
  induction f1 with
  | zero => intro f2 s h1 h2; exact absurd h1 (Nat.not_lt_zero _)
  | succ m ih =>
    intro f2 s h1 h2
    cases f2 with
    | zero => exact absurd h2 (Nat.not_lt_zero _)
    | succ m2 =>
      cases s with
      | nil => rfl
      | cons c t =>
        rw [pySplitWSFuel_succ, pySplitWSFuel_succ]
        simp only [List.length_cons] at h1 h2
        by_cases hc : pyIsSpace c = true
        · rw [if_pos hc, if_pos hc, ih m2 t (by omega) (by omega)]
        · have hd := length_dropWhile_le (fun x => !pyIsSpace x) t
          rw [if_neg hc, if_neg hc,
            ih m2 (t.dropWhile fun x => !pyIsSpace x) (by omega) (by omega)]

theorem pySplitWS_nil : pySplitWS [] = [] := rfl

theorem pySplitWS_cons_ws {c : Char} {t : List Char} (h : pyIsSpace c = true) :
    pySplitWS (c :: t) = pySplitWS t := by
  unfold pySplitWS
  simp only [List.length_cons]
  rw [pySplitWSFuel_succ, if_pos h]

theorem pySplitWS_cons_word {c : Char} {t : List Char} (h : pyIsSpace c = false) :
    pySplitWS (c :: t) = (c :: t.takeWhile (fun x => !pyIsSpace x)) ::
      pySplitWS (t.dropWhile (fun x => !pyIsSpace x)) := by
  unfold pySplitWS
  simp only [List.length_cons]
  rw [pySplitWSFuel_succ, if_neg (by simp [h])]
  congr 1
  exact pySplitWSFuel_congr (t.length + 1)
    ((t.dropWhile fun x => !pyIsSpace x).length + 1)
    (t.dropWhile fun x => !pyIsSpace x)
    (Nat.lt_succ_of_le (length_dropWhile_le _ _)) (Nat.lt_succ_self _)

theorem pySplitWS_wsLead {sp rest : List Char}
    (h : ∀ ch ∈ sp, pyIsSpace ch = true) :
    pySplitWS (sp ++ rest) = pySplitWS rest := by
  induction sp with
  | nil => rfl
  | cons c t ih =>
    rw [List.cons_append, pySplitWS_cons_ws (h c (List.mem_cons_self c t))]
    exact ih fun ch hch => h ch (List.mem_cons_of_mem c hch)

/-- Splitting a leading whitespace-free word followed by nothing or by a
whitespace character yields the word as the first element. -/
theorem pySplitWS_word_append {w rest : List Char} (hne : w ≠ [])
    (hw : ∀ ch ∈ w, pyIsSpace ch = false)
    (hrest : rest = [] ∨ ∃ c t, rest = c :: t ∧ pyIsSpace c = true) :
    pySplitWS (w ++ rest) = w :: pySplitWS rest := by
  cases w with
  | nil => exact absurd rfl hne
  | cons c t =>
    rw [List.cons_append, pySplitWS_cons_word (hw c (List.mem_cons_self c t))]
    have htw : (t ++ rest).takeWhile (fun x => !pyIsSpace x) =
        t ++ rest.takeWhile (fun x => !pyIsSpace x) :=
      takeWhile_append_of_all fun ch hch => by
        simp [hw ch (List.mem_cons_of_mem c hch)]
    have hdw : (t ++ rest).dropWhile (fun x => !pyIsSpace x) =
        rest.dropWhile (fun x => !pyIsSpace x) :=
      dropWhile_append_of_all fun ch hch => by
        simp [hw ch (List.mem_cons_of_mem c hch)]
    rw [htw, hdw]
    rcases hrest with rfl | ⟨c2, t2, rfl, hc2⟩
    · simp
    · have h1 : (c2 :: t2).takeWhile (fun x => !pyIsSpace x) = [] := by
        simp [List.takeWhile_cons, hc2]
      have h2 : (c2 :: t2).dropWhile (fun x => !pyIsSpace x) = c2 :: t2 := by
        simp [List.dropWhile_cons, hc2]
      rw [h1, h2, List.append_nil]

theorem pySplitWS_single {w : List Char} (hne : w ≠ [])
    (hw : ∀ ch ∈ w, pyIsSpace ch = false) : pySplitWS w = [w] := by
  have h1 := pySplitWS_word_append hne hw (Or.inl rfl)
  rw [List.append_nil] at h1
  rw [h1, pySplitWS_nil]

theorem strMk_ne_empty {l : List Char} (h : l ≠ []) : (⟨l⟩ : String) ≠ "" := by
  intro hc
  exact h (congrArg String.data hc)

/-- Unfolding `normalize_description` on a nonempty character list. -/
theorem normalize_description_data {l : List Char} (h : l ≠ []) :
    normalize_description ⟨l⟩ =
      ⟨joinWords (pySplitWS (reSubAll rePack [' '] (reSubAll reTrailX [] l)))⟩ := by
  unfold normalize_description
  rw [if_neg (strMk_ne_empty h)]

/-- A packaging token ends in `U` or `N`. -/
theorem packTok_getLast {t : List Char} (ht : PackTok t) :
    t.getLast? = some 'U' ∨ t.getLast? = some 'N' := by
  obtain ⟨wd, mid, um, ud, nt, rfl, -, -, -, -, -, -, hnt⟩ := ht
  have e1 : (wd ++ (mid ++ (um ++ 'X' :: (ud ++ 'U' :: nt)))).getLast?
      = (mid ++ (um ++ 'X' :: (ud ++ 'U' :: nt))).getLast? :=
    getLast?_append_right (by simp)
  have e2 : (mid ++ (um ++ 'X' :: (ud ++ 'U' :: nt))).getLast?
      = (um ++ 'X' :: (ud ++ 'U' :: nt)).getLast? :=
    getLast?_append_right (by simp)
  have e3 : (um ++ 'X' :: (ud ++ 'U' :: nt)).getLast?
      = (('X' :: (ud ++ 'U' :: nt)) : List Char).getLast? :=
    getLast?_append_right (by simp)
  have e4 : ((('X' : Char) :: (ud ++ 'U' :: nt)) : List Char).getLast?
      = (ud ++ 'U' :: nt).getLast? := by
    rw [show (('X' : Char) :: (ud ++ 'U' :: nt)) =
      ['X'] ++ (ud ++ 'U' :: nt) from rfl]
    exact getLast?_append_right (by simp)
  have e5 : (ud ++ 'U' :: nt).getLast? = (('U' : Char) :: nt).getLast? :=
    getLast?_append_right (by simp)
  have h1 := e1.trans (e2.trans (e3.trans (e4.trans e5)))
  rcases hnt with rfl | rfl
  · exact Or.inl (by rw [h1]; decide)
  · exact Or.inr (by rw [h1]; decide)

/-- C9 counterexample: the packaging-token substitution in
`normalize_description` accepts only a decimal COMMA in the weight
(pattern `\s*\d+(?:,\d+)?(?:G|KG)X\d+U(?:N)?\s*`), so a token whose weight
carries a decimal PERIOD is only partially removed, while the comma variant
is stripped entirely — refuting the claim that the weight may carry a comma
or a period. -/
theorem c9_counterexample :
    normalize_description "TRUFA 13.5GX150UN" = "TRUFA 13." ∧
    normalize_description "TRUFA 13,5GX150UN" = "TRUFA" := by decide

/-- C9 (amended): `normalize_description` maps empty input to empty output;
it strips a trailing ` X <digits>` token down to the preceding word; it
strips a space-separated packaging token `<weight>(G|KG)X<units>U(N)?` whose
decimal weight separator is a comma (the only separator the substitution
pattern accepts); and it collapses an internal whitespace run to a single
space. -/
theorem c9_normalize_description :
    (normalize_description "" = "") ∧
    (∀ pre ds : List Char, pre ≠ [] →
      (∀ ch ∈ pre, pyIsSpace ch = false ∧ ch.isDigit = false) →
      ds ≠ [] → (∀ ch ∈ ds, ch.isDigit = true) →
      normalize_description ⟨pre ++ (' ' :: 'X' :: ' ' :: ds)⟩ = ⟨pre⟩) ∧
    (∀ pre t : List Char, pre ≠ [] →
      (∀ ch ∈ pre, pyIsSpace ch = false ∧ ch.isDigit = false) →
      PackTok t →
      normalize_description ⟨pre ++ (' ' :: t)⟩ = ⟨pre⟩) ∧
    (∀ w1 sp w2 : List Char, w1 ≠ [] → w2 ≠ [] →
      (∀ ch ∈ w1, pyIsSpace ch = false ∧ ch.isDigit = false) →
      (∀ ch ∈ w2, pyIsSpace ch = false ∧ ch.isDigit = false) →
      sp ≠ [] → (∀ ch ∈ sp, pyIsSpace ch = true) →
      normalize_description ⟨w1 ++ (sp ++ w2)⟩ = ⟨w1 ++ ' ' :: w2⟩) := by
  refine ⟨by decide, ?_, ?_, ?_⟩
  · intro pre ds hprene hprech hdsne hds
    have hne : pre ++ (' ' :: 'X' :: ' ' :: ds) ≠ [] := by simp
    rw [normalize_description_data hne]
    have hA : reSubAll reTrailX [] (pre ++ (' ' :: 'X' :: ' ' :: ds)) = pre := by
      rw [reSubAll_append pre (' ' :: 'X' :: ' ' :: ds) (fun t ht hl => by
        obtain ⟨c, t2, rfl, hcp⟩ := suffix_head_mem ht hl
        exact reMatchEnd_reTrailX_head (hprech c hcp).1)]
      rw [reSubAll_match (reTrailX_matchEnd hdsne hds)
        (by simp only [List.length_nil, List.length_cons]; omega)]
      rw [reSubAll_nil reMatchEnd_reTrailX_nil]
      simp
    rw [hA]
    have hB : reSubAll rePack [' '] pre = pre :=
      reSubAll_rePack_id_noDigit fun ch hch => (hprech ch hch).2
    rw [hB, pySplitWS_single hprene fun ch hch => (hprech ch hch).1]
    rfl
  · intro pre t hprene hprech hpt
    have htne : t ≠ [] := by
      intro h0
      rcases packTok_getLast hpt with h | h <;> rw [h0] at h <;> simp at h
    have hne : pre ++ (' ' :: t) ≠ [] := by simp
    rw [normalize_description_data hne]
    have hlast : (pre ++ (' ' :: t)).getLast? = t.getLast? := by
      rw [show pre ++ (' ' :: t) = (pre ++ [' ']) ++ t from by simp]
      exact getLast?_append_right htne
    have hA : reSubAll reTrailX [] (pre ++ (' ' :: t)) = pre ++ (' ' :: t) := by
      rcases packTok_getLast hpt with h | h
      · exact reSubAll_reTrailX_id
          (show (pre ++ (' ' :: t)).getLast? = some 'U' from by rw [hlast, h])
          (by decide) (by decide)
      · exact reSubAll_reTrailX_id
          (show (pre ++ (' ' :: t)).getLast? = some 'N' from by rw [hlast, h])
          (by decide) (by decide)
    rw [hA]
    have hB : reSubAll rePack [' '] (pre ++ (' ' :: t)) = pre ++ [' '] := by
      rw [reSubAll_append pre (' ' :: t) (fun u hu hl => by
        obtain ⟨c, t2, rfl, hcp⟩ := suffix_head_mem hu hl
        exact reMatchEnd_rePack_head (hprech c hcp).1 (hprech c hcp).2)]
      rw [reSubAll_match (rePack_matchEnd hpt)
        (by simp only [List.length_nil, List.length_cons]; omega)]
      rw [reSubAll_nil reMatchEnd_rePack_nil]
      simp
    rw [hB]
    have hC : pySplitWS (pre ++ [' ']) = [pre] := by
      rw [pySplitWS_word_append hprene (fun ch hch => (hprech ch hch).1)
        (Or.inr ⟨' ', [], rfl, by decide⟩)]
      rw [pySplitWS_cons_ws (by decide), pySplitWS_nil]
    rw [hC]
    rfl
  · intro w1 sp w2 hw1ne hw2ne hw1 hw2 hspne hsp
    have hne : w1 ++ (sp ++ w2) ≠ [] := by simp [hw1ne]
    rw [normalize_description_data hne]
    obtain ⟨c2, hc2⟩ : ∃ c, w2.getLast? = some c := by
      cases h : w2.getLast? with
      | some c => exact ⟨c, rfl⟩
      | none =>
        rw [List.getLast?_eq_none_iff] at h
        exact absurd h hw2ne
    have hmem := getLast?_mem hc2
    have hglast : (w1 ++ (sp ++ w2)).getLast? = some c2 := by
      rw [getLast?_append_right (by simp [hw2ne]), getLast?_append_right hw2ne,
        hc2]
    have hA : reSubAll reTrailX [] (w1 ++ (sp ++ w2)) = w1 ++ (sp ++ w2) :=
      reSubAll_reTrailX_id hglast (hw2 c2 hmem).1 (hw2 c2 hmem).2
    rw [hA]
    have hB : reSubAll rePack [' '] (w1 ++ (sp ++ w2)) = w1 ++ (sp ++ w2) := by
      refine reSubAll_rePack_id_noDigit fun ch hch => ?_
      rcases List.mem_append.mp hch with h | h
      · exact (hw1 ch h).2
      rcases List.mem_append.mp h with h | h
      · exact ws_not_digit (hsp ch h)
      · exact (hw2 ch h).2
    rw [hB]
    have hC : pySplitWS (w1 ++ (sp ++ w2)) = [w1, w2] := by
      cases sp with
      | nil => exact absurd rfl hspne
      | cons c0 sp2 =>
        rw [pySplitWS_word_append hw1ne (fun ch hch => (hw1 ch hch).1)
          (Or.inr ⟨c0, sp2 ++ w2, by simp, hsp c0 (List.mem_cons_self c0 sp2)⟩)]
        rw [pySplitWS_wsLead hsp]
        rw [pySplitWS_single hw2ne fun ch hch => (hw2 ch hch).1]
    rw [hC]
    rfl

/-- C9 witness: the amended theorem applied at concrete inputs — a trailing
` X 15` is stripped, a packaging token `100GX15UN` is stripped, and a double
space is collapsed. -/
theorem c9_normalize_description_witness :
    normalize_description ⟨['T', 'A', 'B'] ++ (' ' :: 'X' :: ' ' :: ['1', '5'])⟩ =
      ⟨['T', 'A', 'B']⟩ ∧
    normalize_description ⟨['T', 'A', 'B'] ++ (' ' :: (['1', '0', '0'] ++ ([] ++
      (['G'] ++ 'X' :: (['1', '5'] ++ 'U' :: ['N'])))))⟩ = ⟨['T', 'A', 'B']⟩ ∧
    normalize_description ⟨['A'] ++ ([' ', ' '] ++ ['B'])⟩ =
      ⟨['A'] ++ ' ' :: ['B']⟩ :=
  ⟨c9_normalize_description.2.1 ['T', 'A', 'B'] ['1', '5'] (by decide)
      (by decide) (by decide) (by decide),
   c9_normalize_description.2.2.1 ['T', 'A', 'B'] (['1', '0', '0'] ++ ([] ++
      (['G'] ++ 'X' :: (['1', '5'] ++ 'U' :: ['N'])))) (by decide) (by decide)
      ⟨['1', '0', '0'], [], ['G'], ['1', '5'], ['N'], rfl, by decide, by decide,
        Or.inl rfl, Or.inl rfl, by decide, by decide, Or.inr rfl⟩,
   c9_normalize_description.2.2.2 ['A'] [' ', ' '] ['B'] (by decide) (by decide)
      (by decide) (by decide) (by decide) (by decide)⟩

theorem c4_sort_tiers_witness :
    grupo_priority (some "1014 - Funcionais") = 0 ∧
    grupo_priority (some "1013 - Pascoa") = 2 ∧
    grupo_priority (some "1010 - Outros") = 1 :=
  ⟨c4_sort_tiers.2.2.1 "1014 - Funcionais" (by decide) (by decide),
   c4_sort_tiers.2.2.2.1 "1013 - Pascoa" (by decide) (by decide) (by decide),
   c4_sort_tiers.2.2.2.2.1 "1010 - Outros" (by decide) (by decide)⟩

end CS
